import Mathlib

/-! # generic-lru: the doubly linked list and the LRU cache built on it

A shallow embedding of `internal/list/linkedlist.go` and `lru.go`.

Go pointers are modelled by `Ptr`: `nil`, the address of the two `Node` fields
embedded in the `DLL` struct (`&l.head`, `&l.tail`), or the address of a node
allocated on the Go heap.  The heap is a list of nodes, a heap address is a
position in it, and allocation appends; nothing is ever freed.  A nil
dereference is a Go panic; an operation therefore yields an `Outcome`: it
returns with a result, or it panics, and in both cases it leaves a memory state
behind (the state a caller that recovers would see).

`int` values (`len`) are `Int`: `len` moves by one per call, so no run of
feasible length wraps a 64-bit `int`.  A `uint16` capacity is a natural number;
the code only converts it to `int` and compares it with `len`, so what is proved
for every natural holds for every `uint16`.  The zero value of a type is
`default`.
-/

set_option autoImplicit false

/-- What a call leaves behind: `ret s r` when it returns `r` in state `s`,
`panic s` when it panics (nil dereference) with the memory in state `s`. -/
inductive Outcome (σ ρ : Type) where
  | ret (s : σ) (r : ρ)
  | panic (s : σ)
  deriving DecidableEq, Repr

namespace Outcome

variable {σ ρ : Type}

/-- The memory state a call leaves behind, whether it returned or panicked. -/
def state : Outcome σ ρ → σ
  | ret s _ => s
  | panic s => s

/-- Whether the call panicked. -/
def panicked : Outcome σ ρ → Bool
  | ret _ _ => false
  | panic _ => true

end Outcome

/-- Go `error` values built by the two packages: the three `errors.New` of
`linkedlist.go`, and the `fmt.Errorf` wrappers (`%w`) of both files. -/
inductive Error where
  /-- The error `errors.New("cannot move a nil node")`. -/
  | cannotMoveNil
  /-- The error `errors.New("list is empty: unable to dummy nodes")`. -/
  | listIsEmpty
  /-- The error `errors.New("unable to remove nil node")`. -/
  | unableToRemoveNil
  /-- The wrapper `fmt.Errorf("unable to move to front: %w", err)`. -/
  | unableToMoveToFront (err : Error)
  /-- The wrapper `fmt.Errorf("unable to move existing entry: %w", err)`. -/
  | unableToMoveExisting (err : Error)
  /-- The wrapper `fmt.Errorf("could not insert node at front of list: %w", err)`. -/
  | couldNotInsert (err : Error)
  /-- The wrapper `fmt.Errorf("unable to evict oldest entry: %w", err)`. -/
  | unableToEvict (err : Error)
  /-- The error `fmt.Errorf("could not find an entry for key '%v'", value)`: key not found. -/
  | couldNotFind
  /-- The wrapper `fmt.Errorf("unable to promote entry to head of list: %w", err)`. -/
  | unableToPromote (err : Error)
  deriving DecidableEq, Repr

/-! ## Package `list` (`internal/list/linkedlist.go`) -/

namespace linkedlist

/-- A `*Node[T]`: nil, `&l.head`, `&l.tail`, or a node on the heap. -/
inductive Ptr where
  | nil
  | head
  | tail
  | node (a : Nat)
  deriving DecidableEq, Repr

/-- The `list *DLL[T]` field of a node: nil, or the list `l` that created the node. -/
inductive ListRef where
  | nil
  | l
  deriving DecidableEq, Repr

/-- The struct `Node[T]`. -/
structure Node (T : Type) where
  prev : Ptr
  next : Ptr
  list : ListRef
  Value : T
  deriving DecidableEq, Repr

/-- The struct `DLL[T]` (`head`, `tail`, `len`) together with the heap nodes its
pointers can reach (`heap`; `Ptr.node a` is `heap[a]`). -/
structure DLL (T : Type) where
  head : Node T
  tail : Node T
  len : Int
  heap : List (Node T)
  deriving DecidableEq, Repr

variable {T : Type}

/-- Dereference a pointer for reading: `none` is a nil dereference. -/
def DLL.load (l : DLL T) : Ptr → Option (Node T)
  | .nil => none
  | .head => some l.head
  | .tail => some l.tail
  | .node a => l.heap[a]?

/-- Overwrite the node a pointer refers to.  The operations store through a
pointer only after loading through it, so the nil case is never reached. -/
def DLL.store (l : DLL T) (p : Ptr) (n : Node T) : DLL T :=
  match p with
  | .nil => l
  | .head => { l with head := n }
  | .tail => { l with tail := n }
  | .node a => { l with heap := l.heap.set a n }

/-- Getter `Prev`: a nil receiver is a nil dereference. -/
def Node.Prev (l : DLL T) (n : Ptr) : Option Ptr :=
  (l.load n).map (fun nd => nd.prev)

/-- Getter `Next`. -/
def Node.Next (l : DLL T) (n : Ptr) : Option Ptr :=
  (l.load n).map (fun nd => nd.next)

/-- The constructor `NewDoublyLinkedList`.  The locals `head` and `tail` have their
address taken, so they live on the heap (addresses 0 and 1); the struct
fields `l.head` and `l.tail` are copies of them, at other addresses. -/
def NewDoublyLinkedList [Inhabited T] : DLL T :=
  let head : Node T := { prev := .nil, next := .node 1, list := .nil, Value := default }
  let tail : Node T := { prev := .node 0, next := .nil, list := .nil, Value := default }
  { len := 0, head := head, tail := tail, heap := [head, tail] }

/-- The method `Len`. -/
def DLL.Len (l : DLL T) : Int := l.len

/-- The method `MoveToFront`: `l.head.next.prev = n; l.head.next = n`. -/
def DLL.MoveToFront (l : DLL T) (n : Ptr) : Outcome (DLL T) (Option Error) :=
  if n = .nil then .ret l (some .cannotMoveNil)
  else
    match l.load l.head.next with
    | none => .panic l
    | some first =>
      let l1 := l.store l.head.next { first with prev := n }
      let l2 := { l1 with head := { l1.head with next := n } }
      .ret l2 none

/-- The method `InsertAtFront`.  `newNode` is allocated at the next free heap address. -/
def DLL.InsertAtFront (l : DLL T) (val : T) : Outcome (DLL T) (Ptr × Option Error) :=
  let newNode : Node T := { prev := .head, next := l.head.next, list := .l, Value := val }
  let a := l.heap.length
  let l0 := { l with heap := l.heap ++ [newNode] }
  match l0.MoveToFront (.node a) with
  | .panic l1 => .panic l1
  | .ret l1 (some err) => .ret l1 (.nil, some (.unableToMoveToFront err))
  | .ret l1 none => .ret { l1 with len := l1.len + 1 } (.node a, none)

/-- The method `Remove`: `n.prev.next = n.next; n.next.prev = n.prev; l.len--`. -/
def DLL.Remove (l : DLL T) (n : Ptr) : Outcome (DLL T) (Option Error) :=
  if n = .head ∨ n = .tail then .ret l (some .listIsEmpty)
  else if n = .nil then .ret l (some .unableToRemoveNil)
  else
    match l.load n with
    | none => .panic l
    | some nd =>
      match l.load nd.prev with
      | none => .panic l
      | some p =>
        let l1 := l.store nd.prev { p with next := nd.next }
        match l1.load n with
        | none => .panic l1
        | some nd1 =>
          match l1.load nd1.next with
          | none => .panic l1
          | some q =>
            let l2 := l1.store nd1.next { q with prev := nd1.prev }
            .ret { l2 with len := l2.len - 1 } none

/-- The method `RemoveFromBack`. -/
def DLL.RemoveFromBack (l : DLL T) : Outcome (DLL T) (Ptr × Option Error) :=
  let toRemove := l.tail.prev
  match l.Remove toRemove with
  | .panic l1 => .panic l1
  | .ret l1 (some err) => .ret l1 (.nil, some err)
  | .ret l1 none => .ret l1 (toRemove, none)

/-- Follow `next` links from `p`, listing the nodes met, until nil (at most `fuel` nodes). -/
def DLL.walkNext (l : DLL T) : Nat → Ptr → List Ptr
  | 0, _ => []
  | fuel + 1, p =>
    match l.load p with
    | none => []
    | some nd => p :: l.walkNext fuel nd.next

/-- A real node is one created by `InsertAtFront`: a heap node other than the
two dummy nodes the constructor allocated. -/
def Ptr.isReal : Ptr → Bool
  | .node a => decide (2 ≤ a)
  | _ => false

/-- The real nodes met walking `next` links from the front sentinel `l.head`.
Every heap node can be met once, so `heap.length + 1` steps end the walk. -/
def DLL.realNodes (l : DLL T) : List Ptr :=
  (l.walkNext (l.heap.length + 1) l.head.next).filter Ptr.isReal

end linkedlist

/-! ## Package `lru` (`lru.go`) -/

namespace lru

open linkedlist

/-- The struct `config`. -/
structure config where
  cap : Nat
  deriving DecidableEq, Repr

/-- The struct `entry[K, V]`. -/
structure entry (K V : Type) where
  key : K
  value : V
  deriving DecidableEq, Repr

instance {K V : Type} [Inhabited K] [Inhabited V] : Inhabited (entry K V) :=
  ⟨{ key := default, value := default }⟩

/-- A Go `map[K]*Node`: a list of bindings, at most one per key when built by `mapSet`. -/
abbrev GoMap (K : Type) := List (K × Ptr)

variable {K V : Type}

/-- The map read `m[key]` with its `ok` flag. -/
def mapGet [DecidableEq K] (m : GoMap K) (key : K) : Option Ptr :=
  match m with
  | [] => none
  | (k, p) :: rest => if k = key then some p else mapGet rest key

/-- The map write `m[key] = p`: replaces the binding of `key` or adds one. -/
def mapSet [DecidableEq K] (m : GoMap K) (key : K) (p : Ptr) : GoMap K :=
  match m with
  | [] => [(key, p)]
  | (k, q) :: rest => if k = key then (k, p) :: rest else (k, q) :: mapSet rest key p

/-- The keys of a map. -/
def mapKeys (m : GoMap K) : List K := m.map Prod.fst

/-- The struct `Cache[K, V]`; `list` is the `DLL` the pointer field refers to. -/
structure Cache (K V : Type) where
  list : DLL (entry K V)
  entries : GoMap K
  config : config
  deriving DecidableEq, Repr

/-- The constructor `NewCache`. -/
def NewCache [Inhabited K] [Inhabited V] (capacity : Nat) : Cache K V :=
  { list := NewDoublyLinkedList, entries := [], config := { cap := capacity } }

/-- The method `Len`. -/
def Cache.Len (c : Cache K V) : Int := c.list.Len

/-- The method `Set`. -/
def Cache.Set [DecidableEq K] (c : Cache K V) (key : K) (val : V) :
    Outcome (Cache K V) (Option Error) :=
  match mapGet c.entries key with
  | some existing =>
    match c.list.MoveToFront existing with
    | .panic l => .panic { c with list := l }
    | .ret l (some err) => .ret { c with list := l } (some (.unableToMoveExisting err))
    | .ret l none => .ret { c with list := l } none
  | none =>
    match c.list.InsertAtFront { key := key, value := val } with
    | .panic l => .panic { c with list := l }
    | .ret l (_, some err) => .ret { c with list := l } (some (.couldNotInsert err))
    | .ret l (node, none) =>
      let c1 : Cache K V := { c with list := l, entries := mapSet c.entries key node }
      if c1.list.Len > (c1.config.cap : Int) then
        match c1.list.RemoveFromBack with
        | .panic l2 => .panic { c1 with list := l2 }
        | .ret l2 (_, some err) => .ret { c1 with list := l2 } (some (.unableToEvict err))
        | .ret l2 (_, none) => .ret { c1 with list := l2 } none
      else .ret c1 none

/-- The method `Get`; `default` is the zero value of `V`. -/
def Cache.Get [DecidableEq K] [Inhabited V] (c : Cache K V) (key : K) :
    Outcome (Cache K V) (V × Option Error) :=
  match mapGet c.entries key with
  | none => .ret c (default, some .couldNotFind)
  | some entry =>
    match c.list.MoveToFront entry with
    | .panic l => .panic { c with list := l }
    | .ret l (some err) => .ret { c with list := l } (default, some (.unableToPromote err))
    | .ret l none =>
      match l.load entry with
      | none => .panic { c with list := l }
      | some nd => .ret { c with list := l } (nd.Value.value, none)

/-- A call on the cache. -/
inductive Op (K V : Type) where
  | set (key : K) (val : V)
  | get (key : K)
  deriving DecidableEq, Repr

/-- The key a call is about. -/
def Op.key : Op K V → K
  | .set key _ => key
  | .get key => key

/-- What a call returned: the error of a `Set`, the value and error of a `Get`. -/
inductive Reply (V : Type) where
  | set (err : Option Error)
  | get (value : V) (err : Option Error)
  deriving DecidableEq, Repr

/-- One call. -/
def step [DecidableEq K] [Inhabited V] (c : Cache K V) : Op K V → Outcome (Cache K V) (Reply V)
  | .set key val =>
    match c.Set key val with
    | .panic c1 => .panic c1
    | .ret c1 err => .ret c1 (.set err)
  | .get key =>
    match c.Get key with
    | .panic c1 => .panic c1
    | .ret c1 (value, err) => .ret c1 (.get value err)

/-- A sequence of calls, one after the other; a panic ends it. -/
def run [DecidableEq K] [Inhabited V] (c : Cache K V) : List (Op K V) →
    Outcome (Cache K V) (List (Reply V))
  | [] => .ret c []
  | op :: ops =>
    match step c op with
    | .panic c1 => .panic c1
    | .ret c1 r =>
      match run c1 ops with
      | .panic c2 => .panic c2
      | .ret c2 rs => .ret c2 (r :: rs)

/-- The states met during a sequence of calls: the state after each call that
returned, and the state a panicking call left behind, which ends the sequence. -/
def trace [DecidableEq K] [Inhabited V] (c : Cache K V) : List (Op K V) → List (Cache K V)
  | [] => []
  | op :: ops =>
    match step c op with
    | .panic c1 => [c1]
    | .ret c1 _ => c1 :: trace c1 ops

/-- The cache states a caller can observe: the fresh cache, and the state any
`Set` or `Get` leaves behind, whether it returned or panicked (a caller that
recovers from the panic still holds the cache). -/
inductive Reachable [DecidableEq K] [Inhabited K] [Inhabited V] : Cache K V → Prop where
  | new (capacity : Nat) : Reachable (NewCache capacity)
  | step (c : Cache K V) (op : Op K V) : Reachable c → Reachable (step c op).state

/-- The number of distinct keys in the index `entries`. -/
def Cache.resident [DecidableEq K] (c : Cache K V) : Nat :=
  (mapKeys c.entries).toFinset.card

/-- The keys held by the real nodes of the list, front to back. -/
def Cache.listKeys (c : Cache K V) : List K :=
  c.list.realNodes.filterMap (fun p => (c.list.load p).map (fun nd => nd.Value.key))

/-- Invariant I1: the index and the real nodes of the list hold the same keys,
and each index entry refers to the node holding its key. -/
def Cache.I1 [DecidableEq K] (c : Cache K V) : Prop :=
  (∀ k, k ∈ mapKeys c.entries ↔ k ∈ c.listKeys) ∧
  (∀ k p, mapGet c.entries k = some p → ∃ nd, c.list.load p = some nd ∧ nd.Value.key = k)

/-- An access to `k` in an order of keys, most recent first: `k` moves to the front. -/
def touch [DecidableEq K] (k : K) (order : List K) : List K :=
  k :: order.filter (fun x => decide (x ≠ k))

/-- The key a call accessed: the key of a `Set` or `Get` that returned no error. -/
def accessed : Op K V → Reply V → Option K
  | .set key _, .set none => some key
  | .get key, .get _ none => some key
  | _, _ => none

/-- Second definition, following the words of invariant I3: the keys accessed by
a history of calls and replies, in order of decreasing time of last access
(last successful `Get` or `Set` of the key). -/
def recencyOrder [DecidableEq K] : List (Op K V × Reply V) → List K → List K
  | [], order => order
  | (op, r) :: rest, order =>
    match accessed op r with
    | some key => recencyOrder rest (touch key order)
    | none => recencyOrder rest order

/-- Invariant I3 as the spec words it, for a cache reached by a history of calls
and replies: the walk from the front sentinel yields the resident keys by
decreasing time of last access. -/
def Cache.I3 [DecidableEq K] (c : Cache K V) (history : List (Op K V × Reply V)) : Prop :=
  c.listKeys = (recencyOrder history []).filter (fun k => decide (k ∈ mapKeys c.entries))

/-- The list `l1` keeps what `l` held: the tail sentinel, the heap node at
address 0, and the `Value` and `next` link of every heap node. -/
structure Keeps {T : Type} (l l1 : DLL T) : Prop where
  tail : l1.tail = l.tail
  heap0 : l1.heap[0]? = l.heap[0]?
  nodes : ∀ (b : Nat) (nd : Node T), l.heap[b]? = some nd →
    ∃ nd1 : Node T, l1.heap[b]? = some nd1 ∧ nd1.Value = nd.Value ∧ nd1.next = nd.next

/-- What the cache relies on, in every observable state: the constructor's local
head (heap address 0) keeps a nil `prev` and is what `l.tail.prev` points to; the
front sentinel's `next` is a heap node other than that one; every index entry
points to a real heap node holding its key; the index has one binding per key,
and as many bindings as `len`. -/
structure Inv [DecidableEq K] (c : Cache K V) : Prop where
  heap0 : ∃ nd, c.list.heap[0]? = some nd ∧ nd.prev = Ptr.nil
  tailPrev : c.list.tail.prev = Ptr.node 0
  front : ∃ a nd, c.list.head.next = Ptr.node a ∧ 1 ≤ a ∧ c.list.heap[a]? = some nd
  entriesOk : ∀ k p, mapGet c.entries k = some p →
    ∃ a nd, p = Ptr.node a ∧ 2 ≤ a ∧ c.list.heap[a]? = some nd ∧ nd.Value.key = k
  nodup : (mapKeys c.entries).Nodup
  lenEq : c.list.len = (c.entries.length : Int)

end lru

/-! ## The list on its own: walks, built lists, reachable list states -/

namespace linkedlist

variable {T : Type}

/-- Follow `prev` links from `p`, listing the nodes met, until nil (at most `fuel` nodes). -/
def DLL.walkPrev (l : DLL T) : Nat → Ptr → List Ptr
  | 0, _ => []
  | fuel + 1, p =>
    match l.load p with
    | none => []
    | some nd => p :: l.walkPrev fuel nd.prev

/-- The real nodes met walking `prev` links from the last real node of the
forward walk, back to the front sentinel. -/
def DLL.realNodesBack (l : DLL T) : List Ptr :=
  match l.realNodes.getLast? with
  | none => []
  | some last => (l.walkPrev (l.heap.length + 1) last).filter Ptr.isReal

/-- The list built from `NewDoublyLinkedList` by one `InsertAtFront` call per
element of `xs`, in order. -/
def build [Inhabited T] (xs : List T) : DLL T :=
  xs.foldl (fun l x => (l.InsertAtFront x).state) NewDoublyLinkedList

/-- The nodes `ps`, in this order, form a doubly linked segment between `before`
and `after`: each has the one before it as `prev` and the one after it as `next`. -/
def Linked (l : DLL T) : Ptr → List Ptr → Ptr → Prop
  | _, [], _ => True
  | before, p :: rest, after =>
    ∃ nd, l.load p = some nd ∧ nd.prev = before ∧ nd.next = rest.head?.getD after ∧
      Linked l p rest after

/-- The list is well linked with real nodes `ps`, front to back: the front
sentinel `l.head` points to the first of them, they form a doubly linked segment
from `&l.head` to the dummy tail the walk ends in (heap address 1), they are
distinct nodes created by `InsertAtFront`, and `l.tail.prev` is the constructor's
local head (heap address 0), whose `prev` is nil. -/
structure WellLinked (l : DLL T) (ps : List Ptr) : Prop where
  headPrev : l.head.prev = Ptr.nil
  headNext : l.head.next = ps.head?.getD (Ptr.node 1)
  dummy : ∃ t, l.heap[1]? = some t ∧ t.next = Ptr.nil
  linked : Linked l Ptr.head ps (Ptr.node 1)
  real : ∀ p ∈ ps, p.isReal = true
  nodup : ps.Nodup
  room : ps.length + 2 ≤ l.heap.length
  tailPrev : l.tail.prev = Ptr.node 0
  heap0 : ∃ nd, l.heap[0]? = some nd ∧ nd.prev = Ptr.nil
  lenEq : l.len = (ps.length : Int)

/-- The handles a caller holds after one more `InsertAtFront(x)`: the returned
node joins them when the call returns no error. -/
def DLL.handlesAfterInsert (l : DLL T) (x : T) (hs : List Ptr) : List Ptr :=
  match l.InsertAtFront x with
  | .ret _ (n, none) => n :: hs
  | _ => hs

/-- The list states reachable from `NewDoublyLinkedList` by `InsertAtFront`, and by
`MoveToFront` and `Remove` applied to handles that `InsertAtFront` returned;
`hs` lists those handles. -/
inductive Handled [Inhabited T] : DLL T → List Ptr → Prop where
  | new : Handled NewDoublyLinkedList []
  | insert (l : DLL T) (hs : List Ptr) (x : T) :
      Handled l hs → Handled (l.InsertAtFront x).state (l.handlesAfterInsert x hs)
  | move (l : DLL T) (hs : List Ptr) (n : Ptr) :
      Handled l hs → n ∈ hs → Handled (l.MoveToFront n).state hs
  | remove (l : DLL T) (hs : List Ptr) (n : Ptr) :
      Handled l hs → n ∈ hs → Handled (l.Remove n).state hs

/-- What every such list state keeps: `l.tail.prev` is heap address 0, whose `prev`
is nil; the front sentinel's `next` and the `next` of every real node are heap
nodes other than address 0; the `prev` of every real node is `&l.head` or a
real node; the handles are real heap nodes. -/
structure ListInv (l : DLL T) (hs : List Ptr) : Prop where
  tailPrev : l.tail.prev = Ptr.node 0
  heap0 : ∃ nd, l.heap[0]? = some nd ∧ nd.prev = Ptr.nil
  front : ∃ a, l.head.next = Ptr.node a ∧ 1 ≤ a ∧ a < l.heap.length
  handles : ∀ n ∈ hs, ∃ a, n = Ptr.node a ∧ 2 ≤ a ∧ a < l.heap.length
  nexts : ∀ (a : Nat) (nd : Node T), 2 ≤ a → l.heap[a]? = some nd →
    ∃ b, nd.next = Ptr.node b ∧ 1 ≤ b ∧ b < l.heap.length
  prevs : ∀ (a : Nat) (nd : Node T), 2 ≤ a → l.heap[a]? = some nd →
    nd.prev = Ptr.head ∨ ∃ b, nd.prev = Ptr.node b ∧ 2 ≤ b ∧ b < l.heap.length

/-- A sample reachable list state: `InsertAtFront(1)`, `InsertAtFront(2)`, then `MoveToFront` and
`Remove` of the first handle. -/
def sampleList : DLL Nat :=
  ((((NewDoublyLinkedList.InsertAtFront 1).state.InsertAtFront 2).state.MoveToFront
    (.node 2)).state.Remove (.node 2)).state

/-- Link symmetry: for a real node `A` with `A.next = B`, `B.prev = A`; for a real
node `B` with `B.prev = A`, `A.next = B`; and no node is its own `prev` or `next`. -/
def DLL.LinkSymmetric (l : DLL T) : Prop :=
  (∀ a b na nb, a.isReal = true → l.load a = some na → na.next = b →
    l.load b = some nb → nb.prev = a) ∧
  (∀ a b na nb, b.isReal = true → l.load b = some nb → nb.prev = a →
    l.load a = some na → na.next = b) ∧
  (∀ a na, l.load a = some na → na.prev ≠ a ∧ na.next ≠ a)

end linkedlist

/-! # Theorems -/

namespace lru

open linkedlist

/-! ## The index as a map -/

theorem length_mapKeys {K : Type} (m : GoMap K) : (mapKeys m).length = m.length := by
  simp [mapKeys]

section MapLemmas

variable {K : Type} [DecidableEq K]

theorem mapGet_eq_none_iff (m : GoMap K) (k : K) : mapGet m k = none ↔ k ∉ mapKeys m := by
  induction m with
  | nil => simp [mapGet, mapKeys]
  | cons e rest ih =>
    obtain ⟨k1, p1⟩ := e
    by_cases h : k1 = k
    · simp [mapGet, mapKeys, h]
    · have h2 : ¬ k = k1 := fun e => h e.symm
      simpa [mapGet, mapKeys, h, h2] using ih

theorem mapGet_isSome_iff (m : GoMap K) (k : K) : (∃ p, mapGet m k = some p) ↔ k ∈ mapKeys m := by
  rw [← not_iff_not, ← mapGet_eq_none_iff]
  cases mapGet m k <;> simp

theorem mapSet_of_none (m : GoMap K) (k : K) (p : Ptr) (h : mapGet m k = none) :
    mapSet m k p = m ++ [(k, p)] := by
  induction m with
  | nil => rfl
  | cons e rest ih =>
    obtain ⟨k1, p1⟩ := e
    by_cases hk : k1 = k
    · simp [mapGet, hk] at h
    · simp only [mapGet, hk, if_false] at h
      simp [mapSet, hk, ih h]

theorem mapGet_append_single (m : GoMap K) (k k1 : K) (p : Ptr) (h : mapGet m k = none) :
    mapGet (m ++ [(k, p)]) k1 = if k = k1 then some p else mapGet m k1 := by
  induction m with
  | nil => simp [mapGet]
  | cons e rest ih =>
    obtain ⟨k2, p2⟩ := e
    by_cases hk : k2 = k
    · simp [mapGet, hk] at h
    · simp only [mapGet, hk, if_false] at h
      by_cases hk1 : k2 = k1
      · have : ¬ k = k1 := fun e => hk (hk1.trans e.symm)
        simp [mapGet, hk1, this]
      · simp [mapGet, hk1, ih h]

end MapLemmas

/-! ## The list operations on a well-linked front -/

section ListLemmas

variable {T : Type}

theorem MoveToFront_node (l : DLL T) (a : Nat) (first : Node T) (n : Ptr)
    (h1 : l.head.next = .node a) (h2 : l.heap[a]? = some first) (hn : n ≠ .nil) :
    l.MoveToFront n = .ret { l with heap := l.heap.set a { first with prev := n },
                                    head := { l.head with next := n } } none := by
  unfold DLL.MoveToFront
  simp [hn, h1, DLL.load, h2, DLL.store]

theorem InsertAtFront_node (l : DLL T) (a : Nat) (first : Node T) (val : T)
    (h1 : l.head.next = .node a) (h2 : l.heap[a]? = some first) :
    l.InsertAtFront val = .ret
      { l with heap := (l.heap ++ [({ prev := .head, next := .node a, list := .l,
                                      Value := val } : Node T)]).set a
                          { first with prev := .node l.heap.length },
               head := { l.head with next := .node l.heap.length },
               len := l.len + 1 } (.node l.heap.length, none) := by
  have h3 : ∀ x : Node T, (l.heap ++ [x])[a]? = some first := by
    intro x
    rw [List.getElem?_append_left]
    · exact h2
    · exact (List.getElem?_eq_some.1 h2).1
  unfold DLL.InsertAtFront
  simp only [h1]
  rw [MoveToFront_node _ a first _ (by simpa using h1) (h3 _) (by simp)]

theorem RemoveFromBack_panics (l : DLL T) (nd : Node T) (h0 : l.heap[0]? = some nd)
    (hp : nd.prev = .nil) (ht : l.tail.prev = .node 0) : l.RemoveFromBack = .panic l := by
  unfold DLL.RemoveFromBack DLL.Remove
  simp [ht, DLL.load, h0, hp]

/-- Rewriting the `prev` link of one heap node keeps every node's `Value` and `next`. -/
theorem getElem?_set_prev (h : List (Node T)) (a b : Nat) (first nd : Node T) (n : Ptr)
    (ha : h[a]? = some first) (hb : h[b]? = some nd) :
    ∃ nd1, (h.set a { first with prev := n })[b]? = some nd1 ∧ nd1.Value = nd.Value ∧
      nd1.next = nd.next := by
  by_cases hab : a = b
  · subst hab
    have hlt : a < h.length := (List.getElem?_eq_some.1 ha).1
    refine ⟨{ first with prev := n }, ?_, ?_, ?_⟩
    · simp [List.getElem?_set_self, hlt]
    · have : first = nd := by rw [ha] at hb; exact Option.some.inj hb
      simp [this]
    · have : first = nd := by rw [ha] at hb; exact Option.some.inj hb
      simp [this]
  · exact ⟨nd, by rw [List.getElem?_set_ne hab]; exact hb, rfl, rfl⟩

/-- A real node that is the front sentinel's `next` is the first real node of the walk. -/
theorem realNodes_head (l : DLL T) (p : Ptr) (nd : Node T) (hf : l.head.next = p)
    (hnd : l.load p = some nd) (hr : p.isReal = true) : l.realNodes.head? = some p := by
  unfold DLL.realNodes
  rw [hf]
  simp only [DLL.walkNext, hnd]
  rw [List.filter_cons_of_pos hr]
  rfl

end ListLemmas

/-! ## One call on a cache that satisfies the invariant -/

section StepLemmas

variable {K V : Type} [DecidableEq K]

theorem Keeps.refl {T : Type} (l : DLL T) : Keeps l l :=
  ⟨rfl, rfl, fun _ nd h => ⟨nd, h, rfl, rfl⟩⟩

theorem Keeps.trans {T : Type} {l l1 l2 : DLL T} (h1 : Keeps l l1) (h2 : Keeps l1 l2) :
    Keeps l l2 := by
  refine ⟨h2.tail.trans h1.tail, h2.heap0.trans h1.heap0, ?_⟩
  intro b nd hb
  obtain ⟨nd1, hb1, hv1, hn1⟩ := h1.nodes b nd hb
  obtain ⟨nd2, hb2, hv2, hn2⟩ := h2.nodes b nd1 hb1
  exact ⟨nd2, hb2, hv2.trans hv1, hn2.trans hn1⟩

/-- The method `MoveToFront` on a non-nil node, when the front sentinel's `next` is a heap
node other than the one at address 0: it returns no error, and only rewrites
one `prev` link and `l.head.next`. -/
theorem MoveToFront_keeps {T : Type} (l : DLL T) (a : Nat) (first : Node T) (n : Ptr)
    (h1 : l.head.next = .node a) (ha : 1 ≤ a) (h2 : l.heap[a]? = some first) (hn : n ≠ .nil) :
    ∃ l1, l.MoveToFront n = .ret l1 none ∧ Keeps l l1 ∧ l1.head.next = n ∧ l1.len = l.len ∧
      l1.heap.length = l.heap.length := by
  refine ⟨_, MoveToFront_node l a first n h1 h2 hn, ⟨rfl, ?_, ?_⟩, rfl, rfl, by simp⟩
  · have : a ≠ 0 := by omega
    simp [List.getElem?_set_ne this]
  · intro b nd hb
    exact getElem?_set_prev l.heap a b first nd n h2 hb

/-- The method `InsertAtFront` under the same conditions: it returns the new node, at the next
free address, holding `val`, and `len` grows by one. -/
theorem InsertAtFront_keeps {T : Type} (l : DLL T) (a : Nat) (first : Node T) (val : T)
    (h1 : l.head.next = .node a) (ha : 1 ≤ a) (h2 : l.heap[a]? = some first) :
    ∃ l1, l.InsertAtFront val = .ret l1 (.node l.heap.length, none) ∧ Keeps l l1 ∧
      l1.head.next = .node l.heap.length ∧ l1.len = l.len + 1 ∧
      l1.heap[l.heap.length]? =
        some { prev := .head, next := .node a, list := .l, Value := val } := by
  have hlt : a < l.heap.length := (List.getElem?_eq_some.1 h2).1
  refine ⟨_, InsertAtFront_node l a first val h1 h2, ⟨rfl, ?_, ?_⟩, rfl, rfl, ?_⟩
  · have : a ≠ 0 := by omega
    have h0 : 0 < l.heap.length := by omega
    simp [List.getElem?_set_ne this, List.getElem?_append_left h0]
  · intro b nd hb
    have hb1 : ∀ x : Node T, (l.heap ++ [x])[b]? = some nd := by
      intro x
      rw [List.getElem?_append_left (List.getElem?_eq_some.1 hb).1]
      exact hb
    have ha1 : ∀ x : Node T, (l.heap ++ [x])[a]? = some first := by
      intro x
      rw [List.getElem?_append_left hlt]
      exact h2
    exact getElem?_set_prev _ a b first nd _ (ha1 _) (hb1 _)
  · have : a ≠ l.heap.length := by omega
    simp [List.getElem?_set_ne this]

end StepLemmas

section CacheLemmas

variable {K V : Type} [DecidableEq K]

theorem Get_miss [Inhabited V] (c : Cache K V) (k : K) (h : mapGet c.entries k = none) :
    c.Get k = .ret c (default, some .couldNotFind) := by
  unfold Cache.Get
  simp [h]

theorem Set_existing (c : Cache K V) (hI : Inv c) (k : K) (v : V) (p : Ptr)
    (hp : mapGet c.entries k = some p) :
    ∃ l1, c.Set k v = .ret { c with list := l1 } none ∧ Keeps c.list l1 ∧
      l1.head.next = p ∧ l1.len = c.list.len := by
  obtain ⟨a, first, h1, ha, h2⟩ := hI.front
  obtain ⟨b, nd, hb, _, _, _⟩ := hI.entriesOk k p hp
  have hn : p ≠ .nil := by simp [hb]
  obtain ⟨l1, hm, hk, hf, hl, _⟩ := MoveToFront_keeps c.list a first p h1 ha h2 hn
  refine ⟨l1, ?_, hk, hf, hl⟩
  unfold Cache.Set
  simp [hp, hm]

theorem Get_hit [Inhabited V] (c : Cache K V) (hI : Inv c) (k : K) (p : Ptr)
    (hp : mapGet c.entries k = some p) :
    ∃ l1 nd, c.list.load p = some nd ∧ nd.Value.key = k ∧
      c.Get k = .ret { c with list := l1 } (nd.Value.value, none) ∧ Keeps c.list l1 ∧
      l1.head.next = p ∧ l1.len = c.list.len := by
  obtain ⟨a, first, h1, ha, h2⟩ := hI.front
  obtain ⟨b, nd, hb, _, hnd, hkey⟩ := hI.entriesOk k p hp
  have hn : p ≠ .nil := by simp [hb]
  obtain ⟨l1, hm, hk, hf, hl, _⟩ := MoveToFront_keeps c.list a first p h1 ha h2 hn
  obtain ⟨nd1, hnd1, hv1, _⟩ := hk.nodes b nd hnd
  refine ⟨l1, nd, by simp [hb, DLL.load, hnd], hkey, ?_, hk, hf, hl⟩
  subst hb
  unfold Cache.Get
  simp [hp, hm, DLL.load, hnd1, hv1]

theorem Set_new (c : Cache K V) (hI : Inv c) (k : K) (v : V) (h : mapGet c.entries k = none) :
    ∃ l1 nd, Keeps c.list l1 ∧ l1.head.next = .node c.list.heap.length ∧
      l1.len = c.list.len + 1 ∧ l1.heap[c.list.heap.length]? = some nd ∧
      nd.Value = { key := k, value := v } ∧ 2 ≤ c.list.heap.length ∧
      c.Set k v =
        if l1.len > (c.config.cap : Int) then
          .panic { c with list := l1, entries := mapSet c.entries k (.node c.list.heap.length) }
        else
          .ret { c with list := l1, entries := mapSet c.entries k (.node c.list.heap.length) }
            none := by
  obtain ⟨a, first, h1, ha, h2⟩ := hI.front
  obtain ⟨nd0, h0, hp0⟩ := hI.heap0
  obtain ⟨l1, hm, hk, hf, hl, hnew⟩ :=
    InsertAtFront_keeps c.list a first ({ key := k, value := v } : entry K V) h1 ha h2
  have hlt : a < c.list.heap.length := (List.getElem?_eq_some.1 h2).1
  refine ⟨l1, _, hk, hf, hl, hnew, rfl, by omega, ?_⟩
  have hrb : l1.RemoveFromBack = .panic l1 :=
    RemoveFromBack_panics l1 nd0 (hk.heap0.trans h0) hp0 (by rw [hk.tail]; exact hI.tailPrev)
  unfold Cache.Set
  simp only [h, hm, DLL.Len]
  split
  · simp [hrb]
  · rfl

end CacheLemmas

section InvLemmas

variable {K V : Type} [DecidableEq K]

theorem Inv_new [Inhabited K] [Inhabited V] (capacity : Nat) :
    Inv (NewCache capacity : Cache K V) := by
  refine ⟨⟨_, rfl, rfl⟩, rfl, ⟨1, _, rfl, le_refl 1, rfl⟩, ?_, ?_, rfl⟩
  · intro k p h
    simp [NewCache, mapGet] at h
  · simp [NewCache, mapKeys]

/-- A list that keeps what the cache's list held, with an indexed node at its
front and the same `len`, keeps the invariant. -/
theorem Inv_of_keeps (c : Cache K V) (hI : Inv c) (l1 : DLL (entry K V)) (k : K) (p : Ptr)
    (hk : Keeps c.list l1) (hp : mapGet c.entries k = some p) (hf : l1.head.next = p)
    (hl : l1.len = c.list.len) : Inv { c with list := l1 } := by
  obtain ⟨nd0, h0, hp0⟩ := hI.heap0
  refine ⟨⟨nd0, hk.heap0.trans h0, hp0⟩, by rw [hk.tail]; exact hI.tailPrev, ?_, ?_,
    hI.nodup, hl.trans hI.lenEq⟩
  · obtain ⟨b, nd, hb, hb2, hnd, _⟩ := hI.entriesOk k p hp
    obtain ⟨nd1, hnd1, _, _⟩ := hk.nodes b nd hnd
    exact ⟨b, nd1, hf.trans hb, by omega, hnd1⟩
  · intro k1 p1 h1
    obtain ⟨b, nd, hb, hb2, hnd, hkey⟩ := hI.entriesOk k1 p1 h1
    obtain ⟨nd1, hnd1, hv1, _⟩ := hk.nodes b nd hnd
    exact ⟨b, nd1, hb, hb2, hnd1, by rw [hv1]; exact hkey⟩

/-- The state a `Set` of an absent key leaves (new node at the front, new
binding in the index) keeps the invariant. -/
theorem Inv_of_insert (c : Cache K V) (hI : Inv c) (l1 : DLL (entry K V)) (k : K)
    (nd : Node (entry K V)) (hk : Keeps c.list l1) (h : mapGet c.entries k = none)
    (hf : l1.head.next = .node c.list.heap.length) (hl : l1.len = c.list.len + 1)
    (hnew : l1.heap[c.list.heap.length]? = some nd) (hkey : nd.Value.key = k)
    (h2 : 2 ≤ c.list.heap.length) :
    Inv { c with list := l1, entries := mapSet c.entries k (.node c.list.heap.length) } := by
  obtain ⟨nd0, h0, hp0⟩ := hI.heap0
  rw [mapSet_of_none _ _ _ h]
  refine ⟨⟨nd0, hk.heap0.trans h0, hp0⟩, by rw [hk.tail]; exact hI.tailPrev,
    ⟨_, nd, hf, by omega, hnew⟩, ?_, ?_, ?_⟩
  · intro k1 p1 h1
    simp only [] at h1
    rw [mapGet_append_single _ _ _ _ h] at h1
    by_cases hkk : k = k1
    · simp only [hkk, if_true, Option.some.injEq] at h1
      exact ⟨_, nd, h1.symm, h2, hnew, hkey.trans hkk⟩
    · simp only [hkk, if_false] at h1
      obtain ⟨b, nd2, hb, hb2, hnd, hkey2⟩ := hI.entriesOk k1 p1 h1
      obtain ⟨nd1, hnd1, hv1, _⟩ := hk.nodes b nd2 hnd
      exact ⟨b, nd1, hb, hb2, hnd1, by rw [hv1]; exact hkey2⟩
  · have hnot : k ∉ mapKeys c.entries := (mapGet_eq_none_iff _ _).1 h
    have hnd := hI.nodup
    simp only [mapKeys] at hnot hnd ⊢
    simp only [List.map_append, List.map_cons, List.map_nil]
    exact List.Nodup.append hnd (List.nodup_singleton _) (by simpa using hnot)
  · simp only [List.length_append, List.length_singleton, hl, hI.lenEq]
    push_cast
    rfl

theorem Inv_Set (c : Cache K V) (hI : Inv c) (k : K) (v : V) : Inv (c.Set k v).state := by
  cases hg : mapGet c.entries k with
  | some p =>
    obtain ⟨l1, hs, hk, hf, hl⟩ := Set_existing c hI k v p hg
    rw [hs]
    exact Inv_of_keeps c hI l1 k p hk hg hf hl
  | none =>
    obtain ⟨l1, nd, hk, hf, hl, hnew, hval, h2, hs⟩ := Set_new c hI k v hg
    have hkey : nd.Value.key = k := by rw [hval]
    have := Inv_of_insert c hI l1 k nd hk hg hf hl hnew hkey h2
    rw [hs]
    split <;> exact this

theorem Inv_Get [Inhabited V] (c : Cache K V) (hI : Inv c) (k : K) : Inv (c.Get k).state := by
  cases hg : mapGet c.entries k with
  | some p =>
    obtain ⟨l1, nd, _, _, hs, hk, hf, hl⟩ := Get_hit c hI k p hg
    rw [hs]
    exact Inv_of_keeps c hI l1 k p hk hg hf hl
  | none =>
    rw [Get_miss c k hg]
    exact hI

theorem step_set_state [Inhabited V] (c : Cache K V) (k : K) (v : V) :
    (step c (.set k v)).state = (c.Set k v).state := by
  simp only [step]
  cases c.Set k v <;> rfl

theorem step_get_state [Inhabited V] (c : Cache K V) (k : K) :
    (step c (.get k : Op K V)).state = (c.Get k).state := by
  simp only [step]
  cases c.Get k <;> rfl

theorem Inv_step [Inhabited V] (c : Cache K V) (hI : Inv c) (op : Op K V) :
    Inv (step c op).state := by
  cases op with
  | set k v => rw [step_set_state]; exact Inv_Set c hI k v
  | get k => rw [step_get_state]; exact Inv_Get c hI k

theorem Reachable.inv [Inhabited K] [Inhabited V] {c : Cache K V} (h : Reachable c) : Inv c := by
  induction h with
  | new capacity => exact Inv_new capacity
  | step c op _ ih => exact Inv_step c ih op

end InvLemmas

/-! ## Runs of calls -/

section RunLemmas

variable {K V : Type} [DecidableEq K]

theorem resident_eq_length (c : Cache K V) (hI : Inv c) : c.resident = c.entries.length := by
  unfold Cache.resident
  rw [List.toFinset_card_of_nodup hI.nodup]
  simp [mapKeys]

theorem Len_eq_resident (c : Cache K V) (hI : Inv c) : c.Len = (c.resident : Int) := by
  rw [resident_eq_length c hI]
  exact hI.lenEq

theorem state_mem_trace [Inhabited V] (c : Cache K V) (op : Op K V) (ops : List (Op K V)) :
    (step c op).state ∈ trace c (op :: ops) := by
  simp only [trace]
  cases step c op <;> simp [Outcome.state]

theorem trace_cons_ret [Inhabited V] (c c1 : Cache K V) (op : Op K V) (ops : List (Op K V))
    (r : Reply V) (h : step c op = .ret c1 r) : trace c (op :: ops) = c1 :: trace c1 ops := by
  simp [trace, h]

/-- A `Set` of an absent key returns when the index stays within the capacity. -/
theorem Set_new_within (c : Cache K V) (hI : Inv c) (k : K) (v : V)
    (h : mapGet c.entries k = none) (hcap : (c.Set k v).state.resident ≤ c.config.cap) :
    ∃ l1 nd, Keeps c.list l1 ∧ l1.heap[c.list.heap.length]? = some nd ∧
      nd.Value = { key := k, value := v } ∧
      c.Set k v =
        .ret { c with list := l1, entries := mapSet c.entries k (.node c.list.heap.length) }
          none := by
  obtain ⟨l1, nd, hk, hf, hl, hnew, hval, h2, hs⟩ := Set_new c hI k v h
  refine ⟨l1, nd, hk, hnew, hval, ?_⟩
  have hkey : nd.Value.key = k := by rw [hval]
  have hI1 := Inv_of_insert c hI l1 k nd hk h hf hl hnew hkey h2
  rw [hs]
  split
  · rename_i hgt
    exfalso
    rw [hs, if_pos hgt] at hcap
    simp only [Outcome.state] at hcap
    have h3 := Len_eq_resident _ hI1
    simp only [Cache.Len, DLL.Len] at h3
    rw [h3] at hgt
    have : (c.config.cap : Int) < (c.config.cap : Int) := lt_of_lt_of_le hgt (by exact_mod_cast hcap)
    exact lt_irrefl _ this
  · rfl

/-- A call on another key that stays within the capacity returns, and keeps the
binding of `k` and what its node holds. -/
theorem step_other [Inhabited V] (c : Cache K V) (hI : Inv c) (op : Op K V) (k : K) (p : Ptr)
    (hne : op.key ≠ k) (hp : mapGet c.entries k = some p)
    (hcap : (step c op).state.resident ≤ (step c op).state.config.cap) :
    ∃ c1 r, step c op = .ret c1 r ∧ mapGet c1.entries k = some p ∧ Keeps c.list c1.list := by
  cases op with
  | set k1 v1 =>
    simp only [Op.key] at hne
    cases hg : mapGet c.entries k1 with
    | some p1 =>
      obtain ⟨l1, hs, hk, _, _⟩ := Set_existing c hI k1 v1 p1 hg
      exact ⟨{ c with list := l1 }, .set none, by simp only [step, hs], hp, hk⟩
    | none =>
      have hcfg : (c.Set k1 v1).state.config = c.config := by
        obtain ⟨l1, nd, _, _, _, _, _, _, hs⟩ := Set_new c hI k1 v1 hg
        rw [hs]
        split <;> rfl
      rw [step_set_state, hcfg] at hcap
      obtain ⟨l1, nd, hk, _, _, hs⟩ := Set_new_within c hI k1 v1 hg hcap
      refine ⟨{ c with list := l1,
                       entries := mapSet c.entries k1 (.node c.list.heap.length) },
        .set none, by simp only [step, hs], ?_, hk⟩
      simp only []
      rw [mapSet_of_none _ _ _ hg, mapGet_append_single _ _ _ _ hg, if_neg hne]
      exact hp
  | get k1 =>
    cases hg : mapGet c.entries k1 with
    | some p1 =>
      obtain ⟨l1, nd, _, _, hs, hk, _, _⟩ := Get_hit c hI k1 p1 hg
      exact ⟨{ c with list := l1 }, .get nd.Value.value none, by simp only [step, hs], hp, hk⟩
    | none =>
      exact ⟨c, .get default (some .couldNotFind), by simp only [step, Get_miss c k1 hg], hp,
        Keeps.refl _⟩

/-- Calls on other keys that stay within the capacity all return, and keep the
binding of `k` and what its node holds. -/
theorem run_others [Inhabited V] (k : K) (p : Ptr) (ops : List (Op K V)) :
    ∀ c : Cache K V, Inv c → (∀ op ∈ ops, op.key ≠ k) → mapGet c.entries k = some p →
      (∀ s ∈ trace c ops, s.resident ≤ s.config.cap) →
      ∃ c1 rs, run c ops = .ret c1 rs ∧ Inv c1 ∧ mapGet c1.entries k = some p ∧
        Keeps c.list c1.list := by
  induction ops with
  | nil =>
    intro c hI _ hp _
    exact ⟨c, [], rfl, hI, hp, Keeps.refl _⟩
  | cons op ops ih =>
    intro c hI hne hp hcap
    obtain ⟨c1, r, hs, hp1, hk1⟩ := step_other c hI op k p (hne op (List.mem_cons_self _ _)) hp
      (hcap _ (state_mem_trace c op ops))
    have hI1 : Inv c1 := by
      have := Inv_step c hI op
      rwa [hs] at this
    rw [trace_cons_ret c c1 op ops r hs] at hcap
    obtain ⟨c2, rs, hr, hI2, hp2, hk2⟩ := ih c1 hI1
      (fun o ho => hne o (List.mem_cons_of_mem _ ho)) hp1
      (fun s hs => hcap s (List.mem_cons_of_mem _ hs))
    exact ⟨c2, r :: rs, by simp only [run, hs, hr], hI2, hp2, hk1.trans hk2⟩

/-- A `Set` of an absent key, spelled out: a new binding at the end of the index
that points to a node holding `v`, the older bindings and nodes kept, and a
panic in `RemoveFromBack` exactly when the cache was full. -/
theorem Set_new_cases (c : Cache K V) (hI : Inv c) (k : K) (v : V)
    (h : mapGet c.entries k = none) :
    ∃ c1, Inv c1 ∧ c1.config = c.config ∧ mapKeys c1.entries = mapKeys c.entries ++ [k] ∧
      c1.Len = c.Len + 1 ∧ Keeps c.list c1.list ∧
      (∀ k1 p1, mapGet c.entries k1 = some p1 → mapGet c1.entries k1 = some p1) ∧
      (∃ p nd, mapGet c1.entries k = some p ∧ c1.list.load p = some nd ∧
        nd.Value.value = v) ∧
      c.Set k v = if c.entries.length + 1 > c.config.cap then .panic c1 else .ret c1 none := by
  obtain ⟨l1, nd, hk, hf, hl, hnew, hval, h2, hs⟩ := Set_new c hI k v h
  have hkey : nd.Value.key = k := by rw [hval]
  have hI1 := Inv_of_insert c hI l1 k nd hk h hf hl hnew hkey h2
  refine ⟨_, hI1, rfl, ?_, hl, hk, ?_, ⟨.node c.list.heap.length, nd, ?_, hnew, ?_⟩, ?_⟩
  · simp [mapSet_of_none _ _ _ h, mapKeys]
  · intro k1 p1 h1
    simp only []
    rw [mapSet_of_none _ _ _ h, mapGet_append_single _ _ _ _ h]
    have : ¬ k = k1 := by
      intro e
      rw [e, h1] at h
      exact Option.noConfusion h
    rw [if_neg this]
    exact h1
  · simp only []
    rw [mapSet_of_none _ _ _ h, mapGet_append_single _ _ _ _ h, if_pos rfl]
  · rw [hval]
  · rw [hs]
    have hiff : (l1.len > (c.config.cap : Int)) ↔ c.entries.length + 1 > c.config.cap := by
      rw [hl, hI.lenEq]
      constructor
      · intro hh
        have : (c.config.cap : Int) < ((c.entries.length + 1 : Nat) : Int) := by
          push_cast
          exact hh
        exact_mod_cast this
      · intro hh
        have : (c.config.cap : Int) < ((c.entries.length + 1 : Nat) : Int) := by
          exact_mod_cast hh
        push_cast at this
        exact this
    by_cases hgt : c.entries.length + 1 > c.config.cap
    · rw [if_pos hgt, if_pos (hiff.2 hgt)]
    · rw [if_neg hgt, if_neg (fun hh => hgt (hiff.1 hh))]

/-- Setting pairwise distinct absent keys while there is room: every `Set` returns
no error, the keys join the index, each bound to a node holding its value. -/
theorem sets_fill [Inhabited V] (kvs : List (K × V)) :
    ∀ c : Cache K V, Inv c → (kvs.map Prod.fst).Nodup →
      (∀ kv ∈ kvs, kv.1 ∉ mapKeys c.entries) →
      c.entries.length + kvs.length ≤ c.config.cap →
      ∃ c1, run c (kvs.map (fun kv => Op.set kv.1 kv.2)) =
          .ret c1 (kvs.map (fun _ => Reply.set none)) ∧
        Inv c1 ∧ c1.config = c.config ∧
        mapKeys c1.entries = mapKeys c.entries ++ kvs.map Prod.fst ∧
        Keeps c.list c1.list ∧
        (∀ k1 p1, mapGet c.entries k1 = some p1 → mapGet c1.entries k1 = some p1) ∧
        (∀ kv ∈ kvs, ∃ p nd, mapGet c1.entries kv.1 = some p ∧ c1.list.load p = some nd ∧
          nd.Value.value = kv.2) := by
  induction kvs with
  | nil =>
    intro c hI _ _ _
    exact ⟨c, rfl, hI, rfl, by simp, Keeps.refl _, fun _ _ h => h, by simp⟩
  | cons kv kvs ih =>
    intro c hI hnd habs hcap
    have h0 : mapGet c.entries kv.1 = none :=
      (mapGet_eq_none_iff _ _).2 (habs kv (List.mem_cons_self _ _))
    obtain ⟨c1, hI1, hcfg, hkeys, _, hk1, hold1, ⟨p, nd, hp, hnd1, hv⟩, hs⟩ :=
      Set_new_cases c hI kv.1 kv.2 h0
    simp only [List.length_cons] at hcap
    rw [if_neg (by omega)] at hs
    simp only [List.map_cons, List.nodup_cons] at hnd
    have hlen1 : c1.entries.length = c.entries.length + 1 := by
      rw [← length_mapKeys, hkeys, List.length_append, length_mapKeys]
      rfl
    obtain ⟨c2, hr, hI2, hcfg2, hkeys2, hk2, hold2, hvals2⟩ := ih c1 hI1 hnd.2
      (by
        intro kv1 hkv1
        rw [hkeys, List.mem_append, List.mem_singleton]
        rintro (hin | heq)
        · exact habs kv1 (List.mem_cons_of_mem _ hkv1) hin
        · exact hnd.1 (heq ▸ List.mem_map_of_mem Prod.fst hkv1))
      (by rw [hcfg, hlen1]; omega)
    refine ⟨c2, ?_, hI2, hcfg2.trans hcfg, ?_, hk1.trans hk2,
      fun k1 p1 h1 => hold2 k1 p1 (hold1 k1 p1 h1), ?_⟩
    · simp only [List.map_cons, run, step, hs, hr]
    · rw [hkeys2, hkeys]
      simp
    · intro kv1 hkv1
      rcases List.mem_cons.1 hkv1 with heq | hin
      · subst heq
        obtain ⟨b, nd2, hb, _, hnd2, _⟩ := hI1.entriesOk _ _ hp
        subst hb
        have hnd3 : nd2 = nd := by
          simp only [DLL.load] at hnd1
          rw [hnd2] at hnd1
          exact Option.some.inj hnd1
        subst hnd3
        obtain ⟨nd4, hnd4, hv4, _⟩ := hk2.nodes b nd2 hnd2
        exact ⟨.node b, nd4, hold2 _ _ hp, hnd4, by rw [hv4]; exact hv⟩
      · exact hvals2 kv1 hin

/-- While there is room the call returns: in a reachable cache with fewer
resident keys than the capacity, `Set(k, v)` of an absent key followed by
`Get(k)` returns `v` with no error and the node of `k` is the front sentinel's
`next`, the first real node of the walk. -/
theorem Set_then_Get_with_room [Inhabited K] [Inhabited V] (c : Cache K V)
    (h : Reachable c) (k : K) (v : V) (habs : mapGet c.entries k = none)
    (hroom : c.resident < c.config.cap) :
    ∃ c1 c2 p nd, c.Set k v = .ret c1 none ∧ c1.Get k = .ret c2 (v, none) ∧
      c2.list.head.next = p ∧ c2.list.realNodes.head? = some p ∧
      c2.list.load p = some nd ∧ nd.Value = { key := k, value := v } := by
  obtain ⟨c1, hI1, _, _, _, _, _, ⟨p, nd, hp, hnd, hv⟩, hs⟩ := Set_new_cases c h.inv k v habs
  rw [resident_eq_length c h.inv] at hroom
  rw [if_neg (by omega)] at hs
  obtain ⟨l2, nd2, hl2, hkey2, hg, hk2, hf2, _⟩ := Get_hit c1 hI1 k p hp
  have hnd2 : nd2 = nd := by
    rw [hnd] at hl2
    exact (Option.some.inj hl2).symm
  subst hnd2
  obtain ⟨b, nd3, hb, hb2, hnd3, _⟩ := hI1.entriesOk k p hp
  subst hb
  obtain ⟨nd4, hnd4, hv4, _⟩ := hk2.nodes b nd3 hnd3
  have hnd5 : nd3 = nd2 := by
    simp only [DLL.load] at hnd
    rw [hnd3] at hnd
    exact Option.some.inj hnd
  subst hnd5
  refine ⟨c1, { c1 with list := l2 }, .node b, nd4, hs, ?_, hf2,
    realNodes_head l2 (.node b) nd4 hf2 hnd4 (by simp [Ptr.isReal, hb2]), hnd4, ?_⟩
  · rw [hg, hv]
  · rw [hv4, ← hkey2, ← hv]

end RunLemmas

section MoreLemmas

variable {K V : Type} [DecidableEq K]

/-- The half of invariant I1 that the code keeps: in every reachable state each
index entry refers to a real node that holds the entry's key. -/
theorem index_entries_point_to_their_nodes [Inhabited K] [Inhabited V] (c : Cache K V)
    (h : Reachable c) (k : K) (p : Ptr) (hp : mapGet c.entries k = some p) :
    p.isReal = true ∧ ∃ nd, c.list.load p = some nd ∧ nd.Value.key = k := by
  obtain ⟨b, nd, hb, hb2, hnd, hkey⟩ := h.inv.entriesOk k p hp
  subst hb
  exact ⟨by simp [Ptr.isReal, hb2], nd, hnd, hkey⟩

/-- A call that returns from a cache within its capacity leaves it within its capacity. -/
theorem step_ret_within [Inhabited V] (c c1 : Cache K V) (op : Op K V) (r : Reply V)
    (hI : Inv c) (hle : c.entries.length ≤ c.config.cap) (hs : step c op = .ret c1 r) :
    c1.entries.length ≤ c1.config.cap := by
  cases op with
  | set k v =>
    cases hg : mapGet c.entries k with
    | some p =>
      obtain ⟨l1, hs1, _⟩ := Set_existing c hI k v p hg
      simp only [step, hs1, Outcome.ret.injEq] at hs
      rw [← hs.1]
      exact hle
    | none =>
      obtain ⟨c2, _, hcfg, hkeys, _, _, _, _, hs1⟩ := Set_new_cases c hI k v hg
      by_cases hgt : c.entries.length + 1 > c.config.cap
      · rw [if_pos hgt] at hs1
        simp [step, hs1] at hs
      · rw [if_neg hgt] at hs1
        simp only [step, hs1, Outcome.ret.injEq] at hs
        rw [← hs.1, hcfg, ← length_mapKeys, hkeys, List.length_append, length_mapKeys]
        simp only [List.length_singleton]
        omega
  | get k =>
    cases hg : mapGet c.entries k with
    | some p =>
      obtain ⟨l1, nd, _, _, hs1, _⟩ := Get_hit c hI k p hg
      simp only [step, hs1, Outcome.ret.injEq] at hs
      rw [← hs.1]
      exact hle
    | none =>
      simp only [step, Get_miss c k hg, Outcome.ret.injEq] at hs
      rw [← hs.1]
      exact hle

theorem run_ret_within [Inhabited V] (ops : List (Op K V)) :
    ∀ (c c1 : Cache K V) (rs : List (Reply V)), Inv c → c.entries.length ≤ c.config.cap →
      run c ops = .ret c1 rs → Inv c1 ∧ c1.entries.length ≤ c1.config.cap := by
  induction ops with
  | nil =>
    intro c c1 rs hI hle hr
    simp only [run, Outcome.ret.injEq] at hr
    rw [← hr.1]
    exact ⟨hI, hle⟩
  | cons op ops ih =>
    intro c c1 rs hI hle hr
    simp only [run] at hr
    cases hs : step c op with
    | panic c2 => simp [hs] at hr
    | ret c2 r =>
      have hI2 : Inv c2 := by
        have := Inv_step c hI op
        rwa [hs] at this
      have hle2 := step_ret_within c c2 op r hI hle hs
      rw [hs] at hr
      cases hr2 : run c2 ops with
      | panic c3 => simp [hr2] at hr
      | ret c3 rs3 =>
        simp only [hr2, Outcome.ret.injEq] at hr
        rw [← hr.1]
        exact ih c2 c3 rs3 hI2 hle2 hr2

/-- When every call of a sequence returns, `Len()` is within the capacity at the
end: the bound is broken only in the state a panicking `Set` leaves. -/
theorem Len_le_cap_of_run_ret [Inhabited K] [Inhabited V] (capacity : Nat)
    (ops : List (Op K V)) (c : Cache K V) (rs : List (Reply V))
    (hr : run (NewCache capacity) ops = .ret c rs) : c.Len ≤ (c.config.cap : Int) := by
  obtain ⟨hI, hle⟩ := run_ret_within ops (NewCache capacity) c rs (Inv_new capacity)
    (by simp [NewCache]) hr
  simp only [Cache.Len, DLL.Len]
  rw [hI.lenEq]
  exact_mod_cast hle

end MoreLemmas

/-! ## The claims about the cache -/

section Claims

variable {K V : Type} [DecidableEq K]

/-- C1, on the code: with `N + 1` pairwise distinct keys set on `NewCache(N)`, the
first `N` calls return no error, and the last `Set` does not complete: it panics
in `RemoveFromBack` and evicts nothing, leaving `Len() = N + 1` and all `N + 1`
keys, the first-inserted one included, in the index. -/
theorem C1_last_set_panics_instead_of_evicting [Inhabited K] [Inhabited V] (N : Nat)
    (kvs : List (K × V)) (k : K) (v : V) (hlen : kvs.length = N)
    (hnd : ((kvs ++ [(k, v)]).map Prod.fst).Nodup) :
    ∃ c0 c1, run (NewCache N : Cache K V) (kvs.map (fun kv => Op.set kv.1 kv.2)) =
        .ret c0 (kvs.map (fun _ => Reply.set none)) ∧
      c0.Set k v = .panic c1 ∧ c1.Len = N + 1 ∧
      mapKeys c1.entries = (kvs ++ [(k, v)]).map Prod.fst := by
  simp only [List.map_append, List.map_cons, List.map_nil] at hnd
  have hnd1 := List.Nodup.of_append_left hnd
  have hk : k ∉ kvs.map Prod.fst := by
    intro hin
    exact (List.disjoint_of_nodup_append hnd) hin (List.mem_singleton_self _)
  obtain ⟨c0, hr, hI0, hcfg0, hkeys0, _⟩ :=
    sets_fill kvs (NewCache N : Cache K V) (Inv_new N) hnd1
      (by intro kv _; simp [NewCache, mapKeys])
      (by simp [NewCache, hlen])
  have hkeys0a : mapKeys c0.entries = kvs.map Prod.fst := by
    rw [hkeys0]
    simp [NewCache, mapKeys]
  have h0 : mapGet c0.entries k = none := by
    rw [mapGet_eq_none_iff, hkeys0a]
    exact hk
  have hlen0 : c0.entries.length = N := by
    rw [← length_mapKeys, hkeys0a, List.length_map, hlen]
  obtain ⟨c1, hI1, hcfg1, hkeys1, hl1, _, _, _, hs⟩ := Set_new_cases c0 hI0 k v h0
  have hcap : c0.config.cap = N := by rw [hcfg0]; rfl
  rw [if_pos (by omega)] at hs
  refine ⟨c0, c1, hr, hs, ?_, ?_⟩
  · rw [hl1]
    have := hI0.lenEq
    simp only [Cache.Len, DLL.Len]
    rw [this, hlen0]
  · rw [hkeys1, hkeys0a]
    simp

/-- The scenario of the spec: capacity 2, `Set("a",1)`, `Set("b",2)`, then `Set("c",3)` panics. -/
theorem C1_last_set_panics_instead_of_evicting_witness :
    ∃ c0 c1, run (NewCache 2 : Cache String Nat)
        ([("a", 1), ("b", 2)].map (fun kv => Op.set kv.1 kv.2)) =
        .ret c0 ([("a", 1), ("b", 2)].map (fun _ => Reply.set none)) ∧
      c0.Set "c" 3 = .panic c1 ∧ c1.Len = 2 + 1 ∧
      mapKeys c1.entries = ([("a", 1), ("b", 2)] ++ [("c", 3)]).map Prod.fst :=
  C1_last_set_panics_instead_of_evicting 2 [("a", 1), ("b", 2)] "c" 3 rfl (by decide)

/-- C2, on the code: fill `NewCache(N)` with `N` pairwise distinct keys, `Get` the
first-inserted one (it returns its value), then `Set` a new key: that `Set` does
not complete, it panics in `RemoveFromBack` and evicts nothing, leaving
`Len() = N + 1` and every key, the second-inserted one included, in the index. -/
theorem C2_set_after_get_panics_instead_of_evicting [Inhabited K] [Inhabited V] (N : Nat)
    (k0 : K) (v0 : V) (kvs : List (K × V)) (k : K) (v : V) (hlen : kvs.length + 1 = N)
    (hnd : (((k0, v0) :: kvs ++ [(k, v)]).map Prod.fst).Nodup) :
    ∃ c0 c1 c2, run (NewCache N : Cache K V)
        (((k0, v0) :: kvs).map (fun kv => Op.set kv.1 kv.2)) =
        .ret c0 (((k0, v0) :: kvs).map (fun _ => Reply.set none)) ∧
      c0.Get k0 = .ret c1 (v0, none) ∧
      c1.Set k v = .panic c2 ∧ c2.Len = N + 1 ∧
      mapKeys c2.entries = ((k0, v0) :: kvs ++ [(k, v)]).map Prod.fst := by
  have hnd0 : ((((k0, v0) :: kvs) ++ [(k, v)]).map Prod.fst).Nodup := by simpa using hnd
  simp only [List.map_append, List.map_cons, List.map_nil] at hnd0
  have hnd1 := List.Nodup.of_append_left hnd0
  have hk : k ∉ ((k0, v0) :: kvs).map Prod.fst := by
    intro hin
    exact (List.disjoint_of_nodup_append hnd0) (by simpa using hin) (List.mem_singleton_self _)
  obtain ⟨c0, hr, hI0, hcfg0, hkeys0, _, _, hvals⟩ :=
    sets_fill ((k0, v0) :: kvs) (NewCache N : Cache K V) (Inv_new N) (by simpa using hnd1)
      (by intro kv _; simp [NewCache, mapKeys])
      (by simp [NewCache, hlen])
  have hkeys0a : mapKeys c0.entries = ((k0, v0) :: kvs).map Prod.fst := by
    rw [hkeys0]
    simp [NewCache, mapKeys]
  obtain ⟨p, nd, hp, hnd2, hv⟩ := hvals (k0, v0) (List.mem_cons_self _ _)
  obtain ⟨l1, nd3, hl3, _, hg, hk1, hf1, hlen1⟩ := Get_hit c0 hI0 k0 p hp
  have hnd3 : nd3 = nd := by
    rw [hnd2] at hl3
    exact (Option.some.inj hl3).symm
  have hI1 : Inv { c0 with list := l1 } := Inv_of_keeps c0 hI0 l1 k0 p hk1 hp hf1 hlen1
  have h0 : mapGet ({ c0 with list := l1 } : Cache K V).entries k = none := by
    rw [mapGet_eq_none_iff]
    simp only []
    rw [hkeys0a]
    exact hk
  have hlen0 : c0.entries.length = N := by
    rw [← length_mapKeys, hkeys0a, List.length_map, List.length_cons, hlen]
  obtain ⟨c2, hI2, hcfg2, hkeys2, hl2, _, _, _, hs⟩ :=
    Set_new_cases { c0 with list := l1 } hI1 k v h0
  have hcap : c0.config.cap = N := by rw [hcfg0]; rfl
  simp only [] at hs
  rw [if_pos (by omega)] at hs
  refine ⟨c0, { c0 with list := l1 }, c2, hr, ?_, hs, ?_, ?_⟩
  · rw [hg, hnd3, hv]
  · rw [hl2]
    have := hI1.lenEq
    simp only [Cache.Len, DLL.Len] at this ⊢
    rw [this, hlen0]
  · rw [hkeys2]
    simp only []
    rw [hkeys0a]
    simp

/-- The scenario of the spec: capacity 2, `Set("a",1)`, `Set("b",2)`, `Get("a")`, then `Set("c",3)`
panics. -/
theorem C2_set_after_get_panics_instead_of_evicting_witness :
    ∃ c0 c1 c2, run (NewCache 2 : Cache String Nat)
        ((("a", 1) :: [("b", 2)]).map (fun kv => Op.set kv.1 kv.2)) =
        .ret c0 ((("a", 1) :: [("b", 2)]).map (fun _ => Reply.set none)) ∧
      c0.Get "a" = .ret c1 (1, none) ∧
      c1.Set "c" 3 = .panic c2 ∧ c2.Len = 2 + 1 ∧
      mapKeys c2.entries = (("a", 1) :: [("b", 2)] ++ [("c", 3)]).map Prod.fst :=
  C2_set_after_get_panics_instead_of_evicting 2 "a" 1 [("b", 2)] "c" 3 rfl (by decide)

/-- C3, on the code: on `NewCache(2)`, `Set("a",1)`, `Set("b",2)`, `Set("c",3)` leave
`Len()` at 1, 2 and 3: the third call has put its node in and panics in
`RemoveFromBack`, so nothing is evicted and `Len()` exceeds the capacity. -/
theorem C3_len_exceeds_capacity_at_panic :
    (trace (NewCache 2 : Cache String Nat) [.set "a" 1, .set "b" 2, .set "c" 3]).map
        Cache.Len = [1, 2, 3] ∧
      (run (NewCache 2 : Cache String Nat)
        [.set "a" 1, .set "b" 2, .set "c" 3]).panicked = true ∧
      ¬ (run (NewCache 2 : Cache String Nat) [.set "a" 1, .set "b" 2, .set "c" 3]).state.Len ≤
        ((NewCache 2 : Cache String Nat).config.cap : Int) := by
  decide

/-- C4, on the code: on `NewCache(2)`, after `Set("a",1)`, `Set("b",2)`, `Get("a")`
(all three return no error) the index holds the keys a and b while the walk from
the front sentinel meets only the node of a: invariant I1 fails. -/
theorem C4_index_and_list_disagree_after_get :
    ∃ c, run (NewCache 2 : Cache String Nat) [.set "a" 1, .set "b" 2, .get "a"] =
        .ret c [.set none, .set none, .get 1 none] ∧
      mapKeys c.entries = ["a", "b"] ∧
      c.list.walkNext (c.list.heap.length + 1) c.list.head.next = [.node 2, .node 1] ∧
      c.listKeys = ["a"] ∧ ¬ c.I1 := by
  refine ⟨_, rfl, by decide, by decide, by decide, ?_⟩
  intro h
  exact absurd ((h.1 "b").1 (by decide)) (by decide)

/-- C5, on the code: in a reachable cache that is full (as many resident keys as
the capacity, or more), `Set(k, v)` of an absent key does not return: it panics. -/
theorem C5_set_of_new_key_panics_when_full [Inhabited K] [Inhabited V] (c : Cache K V)
    (h : Reachable c) (k : K) (v : V) (habs : mapGet c.entries k = none)
    (hfull : c.config.cap ≤ c.resident) : ∃ c1, c.Set k v = .panic c1 := by
  obtain ⟨c1, _, _, _, _, _, _, _, hs⟩ := Set_new_cases c h.inv k v habs
  rw [resident_eq_length c h.inv] at hfull
  rw [if_pos (by omega)] at hs
  exact ⟨c1, hs⟩

/-- Capacity 1: after `Set("a",1)` the cache is full and `Set("b",2)` panics. -/
theorem C5_set_of_new_key_panics_when_full_witness :
    ∃ c1, (step (NewCache 1 : Cache String Nat) (.set "a" 1)).state.Set "b" 2 = .panic c1 :=
  C5_set_of_new_key_panics_when_full _ (Reachable.step _ _ (Reachable.new 1)) "b" 2 rfl
    (by decide)

/-- C6: on every reachable cache where `k` is absent, run `Set(k, v)` and then any
calls on other keys; when the number of resident keys stays within the capacity
at every state met, all these calls return and a final `Get(k)` returns `v`
with no error. -/
theorem C6_round_trip_across_other_keys [Inhabited K] [Inhabited V] (c : Cache K V)
    (h : Reachable c) (k : K) (v : V) (ops : List (Op K V))
    (habs : mapGet c.entries k = none) (hne : ∀ op ∈ ops, op.key ≠ k)
    (hcap : ∀ s ∈ trace c (.set k v :: ops), s.resident ≤ s.config.cap) :
    ∃ c1 rs c2, run c (.set k v :: ops) = .ret c1 rs ∧ c1.Get k = .ret c2 (v, none) := by
  have hI := h.inv
  have hcap0 := hcap _ (state_mem_trace c (.set k v) ops)
  have hcfg : (c.Set k v).state.config = c.config := by
    obtain ⟨l1, nd, _, _, _, _, _, _, hs⟩ := Set_new c hI k v habs
    rw [hs]
    split <;> rfl
  rw [step_set_state, hcfg] at hcap0
  obtain ⟨l1, nd, hk, hnew, hval, hs⟩ := Set_new_within c hI k v habs hcap0
  have hstep : step c (.set k v) =
      .ret { c with list := l1, entries := mapSet c.entries k (.node c.list.heap.length) }
        (.set none) := by
    simp only [step, hs]
  have hI1 := Inv_step c hI (.set k v)
  rw [hstep] at hI1
  simp only [Outcome.state] at hI1
  have hp1 : mapGet (mapSet c.entries k (.node c.list.heap.length)) k =
      some (.node c.list.heap.length) := by
    rw [mapSet_of_none _ _ _ habs, mapGet_append_single _ _ _ _ habs, if_pos rfl]
  rw [trace_cons_ret c _ _ ops _ hstep] at hcap
  obtain ⟨c2, rs, hr, hI2, hp2, hk2⟩ := run_others k (.node c.list.heap.length) ops _ hI1 hne hp1
    (fun s hs => hcap s (List.mem_cons_of_mem _ hs))
  obtain ⟨nd2, hnd2, hv2, _⟩ := hk2.nodes _ nd hnew
  obtain ⟨l3, nd3, hl3, _, hg, _⟩ := Get_hit c2 hI2 k _ hp2
  have hnd3 : nd3 = nd2 := by
    simp only [DLL.load] at hl3
    rw [hnd2] at hl3
    exact (Option.some.inj hl3).symm
  refine ⟨c2, .set none :: rs, { c2 with list := l3 }, by simp only [run, hstep, hr], ?_⟩
  rw [hg, hnd3, hv2, hval]

/-- Capacity 3: `Set("a",1)`, then calls on b, z and c, then `Get("a")` returns 1. -/
theorem C6_round_trip_across_other_keys_witness :
    ∃ c1 rs c2, run (NewCache 3 : Cache String Nat)
        (.set "a" 1 :: [.set "b" 2, .get "b", .get "z", .set "c" 3, .set "b" 7]) = .ret c1 rs ∧
      c1.Get "a" = .ret c2 (1, none) :=
  C6_round_trip_across_other_keys (NewCache 3) (Reachable.new 3) "a" 1
    [.set "b" 2, .get "b", .get "z", .set "c" 3, .set "b" 7] rfl (by decide) (by decide)

/-- C7: in every reachable cache state where the index maps `k` to a node holding
the value `v`, `Set(k, v1)` returns no error, leaves `Len()` and the index
unchanged, makes that node the front sentinel's `next` and so the first real
node of the walk, still holding `(k, v)`, and does not overwrite the value: a
following `Get(k)` returns `v`. -/
theorem C7_set_existing_is_recency_bump [Inhabited K] [Inhabited V] (c : Cache K V)
    (h : Reachable c) (k : K) (p : Ptr) (nd : Node (entry K V)) (v v1 : V)
    (hp : mapGet c.entries k = some p) (hnd : c.list.load p = some nd)
    (hv : nd.Value.value = v) :
    ∃ c1, c.Set k v1 = .ret c1 none ∧ c1.Len = c.Len ∧ c1.entries = c.entries ∧
      c1.list.head.next = p ∧ c1.list.realNodes.head? = some p ∧
      (∃ nd1, c1.list.load p = some nd1 ∧ nd1.Value = { key := k, value := v }) ∧
      ∃ c2, c1.Get k = .ret c2 (v, none) := by
  have hI := h.inv
  obtain ⟨l1, hs, hk, hf, hl⟩ := Set_existing c hI k v1 p hp
  have hI1 : Inv { c with list := l1 } := Inv_of_keeps c hI l1 k p hk hp hf hl
  obtain ⟨b, nd2, hb, hb2, hnd2, hkey⟩ := hI.entriesOk k p hp
  subst hb
  have hnd3 : nd2 = nd := by
    simp only [DLL.load] at hnd
    rw [hnd2] at hnd
    exact Option.some.inj hnd
  subst hnd3
  obtain ⟨nd1, hnd1, hv1, _⟩ := hk.nodes b nd2 hnd2
  obtain ⟨l2, nd4, hl4, _, hg, _⟩ := Get_hit { c with list := l1 } hI1 k (.node b) hp
  have hnd4 : nd4 = nd1 := by
    simp only [DLL.load] at hl4
    rw [hnd1] at hl4
    exact (Option.some.inj hl4).symm
  refine ⟨{ c with list := l1 }, hs, hl, rfl, hf,
    realNodes_head l1 (.node b) nd1 hf hnd1 (by simp [Ptr.isReal, hb2]),
    ⟨nd1, hnd1, ?_⟩, ⟨{ c with list := l2 }, ?_⟩⟩
  · rw [hv1, ← hkey, ← hv]
  · rw [hg, hnd4, hv1, hv]

/-- Capacity 2: after `Set("a",1)`, `Set("a",5)` keeps the value 1. -/
theorem C7_set_existing_is_recency_bump_witness :
    ∃ c1, (step (NewCache 2 : Cache String Nat) (.set "a" 1)).state.Set "a" 5 = .ret c1 none ∧
      c1.Len = (step (NewCache 2 : Cache String Nat) (.set "a" 1)).state.Len ∧
      c1.entries = (step (NewCache 2 : Cache String Nat) (.set "a" 1)).state.entries ∧
      c1.list.head.next = .node 2 ∧ c1.list.realNodes.head? = some (.node 2) ∧
      (∃ nd1, c1.list.load (.node 2) = some nd1 ∧ nd1.Value = { key := "a", value := 1 }) ∧
      ∃ c2, c1.Get "a" = .ret c2 (1, none) :=
  C7_set_existing_is_recency_bump _ (Reachable.step _ _ (Reachable.new 2)) "a" (.node 2)
    { prev := .head, next := .node 1, list := .l, Value := { key := "a", value := 1 } } 1 5
    rfl rfl rfl

/-- C8: in every reachable cache state, `Get(k)` returns (it does not panic), and it
returns an error exactly when `k` is absent from the index; on such a miss it
returns the zero value of `V` with the key-not-found error and leaves the whole
cache (list, index, `Len()`) as it was.  Every `Get` on a fresh cache is such a miss. -/
theorem C8_get_fails_exactly_on_miss [Inhabited K] [Inhabited V] (c : Cache K V)
    (h : Reachable c) (k : K) :
    (∃ c1 v err, c.Get k = .ret c1 (v, err) ∧ (err ≠ none ↔ mapGet c.entries k = none)) ∧
    (mapGet c.entries k = none → c.Get k = .ret c (default, some .couldNotFind)) ∧
    (∀ capacity : Nat, (NewCache capacity : Cache K V).Get k =
      .ret (NewCache capacity) (default, some .couldNotFind)) := by
  refine ⟨?_, Get_miss c k, fun capacity => Get_miss _ k rfl⟩
  cases hg : mapGet c.entries k with
  | none => exact ⟨c, default, some .couldNotFind, Get_miss c k hg, by simp⟩
  | some p =>
    obtain ⟨l1, nd, _, _, hs, _⟩ := Get_hit c h.inv k p hg
    exact ⟨_, _, none, hs, by simp⟩

/-- Capacity 2: after `Set("a",1)`, `Get("b")` is a miss. -/
theorem C8_get_fails_exactly_on_miss_witness :
    Reachable (step (NewCache 2 : Cache String Nat) (.set "a" 1)).state ∧
    ((∃ c1 v err, (step (NewCache 2 : Cache String Nat) (.set "a" 1)).state.Get "b" =
        .ret c1 (v, err) ∧
        (err ≠ none ↔
          mapGet (step (NewCache 2 : Cache String Nat) (.set "a" 1)).state.entries "b" = none)) ∧
    (mapGet (step (NewCache 2 : Cache String Nat) (.set "a" 1)).state.entries "b" = none →
      (step (NewCache 2 : Cache String Nat) (.set "a" 1)).state.Get "b" =
        .ret (step (NewCache 2 : Cache String Nat) (.set "a" 1)).state
          (default, some .couldNotFind)) ∧
    (∀ capacity : Nat, (NewCache capacity : Cache String Nat).Get "b" =
      .ret (NewCache capacity) (default, some .couldNotFind))) :=
  ⟨Reachable.step _ _ (Reachable.new 2),
    C8_get_fails_exactly_on_miss _ (Reachable.step _ _ (Reachable.new 2)) "b"⟩

/-- C9, on the code.  On `NewCache(2)`, after `Set("a",1)`, `Set("b",2)`, `Get("a")` the
walk from the front sentinel yields only a, while the resident keys by
decreasing last access are a, b.  On `NewCache(3)`, after `Set` of a, b, c, then
`Get("a")`, `Get("c")`, the walk yields c, b, a while the order of last access is
c, a, b.  In both states `l.tail.prev` is the constructor's local head, not a real
node, and `RemoveFromBack` panics. -/
theorem C9_walk_is_not_recency_order :
    (∃ c rs, run (NewCache 2 : Cache String Nat) [.set "a" 1, .set "b" 2, .get "a"] =
        .ret c rs ∧
      c.listKeys = ["a"] ∧
      recencyOrder (([.set "a" 1, .set "b" 2, .get "a"] : List (Op String Nat)).zip rs) [] =
        ["a", "b"] ∧
      ¬ c.I3 (([.set "a" 1, .set "b" 2, .get "a"] : List (Op String Nat)).zip rs) ∧
      c.list.tail.prev = .node 0 ∧ (Ptr.node 0).isReal = false ∧
      c.list.RemoveFromBack = .panic c.list) ∧
    (∃ c rs, run (NewCache 3 : Cache String Nat)
        [.set "a" 1, .set "b" 2, .set "c" 3, .get "a", .get "c"] = .ret c rs ∧
      c.listKeys = ["c", "b", "a"] ∧
      recencyOrder (([.set "a" 1, .set "b" 2, .set "c" 3, .get "a", .get "c"] :
        List (Op String Nat)).zip rs) [] = ["c", "a", "b"] ∧
      ¬ c.I3 (([.set "a" 1, .set "b" 2, .set "c" 3, .get "a", .get "c"] :
        List (Op String Nat)).zip rs) ∧
      c.list.tail.prev = .node 0 ∧ (Ptr.node 0).isReal = false ∧
      c.list.RemoveFromBack = .panic c.list) := by
  refine ⟨⟨_, _, rfl, by decide, by decide, ?_, by decide, by decide, by decide⟩,
    ⟨_, _, rfl, by decide, by decide, ?_, by decide, by decide, by decide⟩⟩
  · unfold Cache.I3
    decide
  · unfold Cache.I3
    decide

/-- C10: in every cache state reachable from `NewCache` by `Set` and `Get` calls (the
state a panicking call leaves included), `Len()` equals the number of distinct
keys in the index `entries`. -/
theorem C10_len_counts_resident_keys [Inhabited K] [Inhabited V] (c : Cache K V)
    (h : Reachable c) : c.Len = (c.resident : Int) :=
  Len_eq_resident c h.inv

/-- Capacity 2: the state after `Set("a",1)`. -/
theorem C10_len_counts_resident_keys_witness :
    Reachable (step (NewCache 2 : Cache String Nat) (.set "a" 1)).state ∧
      (step (NewCache 2 : Cache String Nat) (.set "a" 1)).state.Len =
        ((step (NewCache 2 : Cache String Nat) (.set "a" 1)).state.resident : Int) :=
  ⟨Reachable.step _ _ (Reachable.new 2),
    C10_len_counts_resident_keys _ (Reachable.step _ _ (Reachable.new 2))⟩

end Claims

end lru

/-! # Theorems about the list on its own -/

namespace lru

open linkedlist

/-! ## Loads, stores and walks -/

section WalkLemmas

variable {T : Type}

theorem load_store_ne (l : DLL T) (p q : Ptr) (n : Node T) (h : q ≠ p) :
    (l.store p n).load q = l.load q := by
  cases p <;> cases q <;> simp_all [DLL.store, DLL.load]
  rename_i a b
  exact List.getElem?_set_ne (fun e => h (by rw [e])) 

theorem load_store_same (l : DLL T) (p : Ptr) (n nd : Node T) (h : l.load p = some nd) :
    (l.store p n).load p = some n := by
  cases p with
  | nil => simp [DLL.load] at h
  | head => rfl
  | tail => rfl
  | node a =>
    simp only [DLL.load] at h
    simp only [DLL.store, DLL.load]
    rw [List.getElem?_set_self (List.getElem?_eq_some.1 h).1]

theorem walkNext_nil (l : DLL T) (fuel : Nat) : l.walkNext fuel .nil = [] := by
  cases fuel <;> simp [DLL.walkNext, DLL.load]

theorem walkPrev_nil (l : DLL T) (fuel : Nat) : l.walkPrev fuel .nil = [] := by
  cases fuel <;> simp [DLL.walkPrev, DLL.load]

theorem getLast?_cons_getD (p : Ptr) (rest : List Ptr) (b : Ptr) :
    (p :: rest).getLast?.getD b = rest.getLast?.getD p := by
  cases rest with
  | nil => rfl
  | cons q rest =>
    rw [List.getLast?_cons_cons, List.getLast?_eq_getLast _ (List.cons_ne_nil q rest)]
    rfl

/-- Walking `next` links through a linked segment lists it, then goes on from `after`. -/
theorem walkNext_linked (l : DLL T) (after : Ptr) (ps : List Ptr) :
    ∀ (before : Ptr) (n : Nat), Linked l before ps after →
      l.walkNext (ps.length + n) (ps.head?.getD after) = ps ++ l.walkNext n after := by
  induction ps with
  | nil =>
    intro before n _
    simp
  | cons p rest ih =>
    intro before n h
    obtain ⟨nd, hnd, _, hnext, hrest⟩ := h
    have : (p :: rest).length + n = (rest.length + n) + 1 := by simp; omega
    rw [this]
    simp only [List.head?_cons, Option.getD_some, DLL.walkNext, hnd, hnext]
    rw [ih p n hrest]
    rfl

/-- Walking `prev` links from the last node of a linked segment lists it backwards,
then goes on from `before`. -/
theorem walkPrev_linked (l : DLL T) (after : Ptr) (ps : List Ptr) :
    ∀ (before : Ptr) (n : Nat), Linked l before ps after →
      l.walkPrev (ps.length + n) (ps.getLast?.getD before) = ps.reverse ++ l.walkPrev n before := by
  induction ps with
  | nil =>
    intro before n _
    simp
  | cons p rest ih =>
    intro before n h
    obtain ⟨nd, hnd, hprev, _, hrest⟩ := h
    have h1 := ih p (n + 1) hrest
    have : (p :: rest).length + n = rest.length + (n + 1) := by simp; omega
    rw [this, getLast?_cons_getD, h1]
    simp only [DLL.walkPrev, hnd, hprev, List.reverse_cons, List.append_assoc,
      List.singleton_append]

/-- A segment stays linked when none of its nodes is written. -/
theorem Linked_congr (l l1 : DLL T) (after : Ptr) (ps : List Ptr) :
    ∀ before : Ptr, (∀ p ∈ ps, l1.load p = l.load p) → Linked l before ps after →
      Linked l1 before ps after := by
  induction ps with
  | nil => intro _ _ _; trivial
  | cons p rest ih =>
    intro before hsame h
    obtain ⟨nd, hnd, hprev, hnext, hrest⟩ := h
    refine ⟨nd, ?_, hprev, hnext, ih p (fun q hq => hsame q (List.mem_cons_of_mem _ hq)) hrest⟩
    rw [hsame p (List.mem_cons_self _ _)]
    exact hnd

/-- Every node of a linked segment can be loaded. -/
theorem Linked_load (l : DLL T) (after : Ptr) (ps : List Ptr) :
    ∀ before : Ptr, Linked l before ps after → ∀ p ∈ ps, ∃ nd, l.load p = some nd := by
  induction ps with
  | nil => intro _ _ p hp; simp at hp
  | cons q rest ih =>
    intro before h p hp
    obtain ⟨nd, hnd, _, _, hrest⟩ := h
    rcases List.mem_cons.1 hp with rfl | hin
    · exact ⟨nd, hnd⟩
    · exact ih q hrest p hin

/-- A linked segment splits in two linked segments, and two join. -/
theorem Linked_append (l : DLL T) (after : Ptr) (A C : List Ptr) :
    ∀ before : Ptr, Linked l before (A ++ C) after ↔
      (Linked l before A (C.head?.getD after) ∧ Linked l (A.getLast?.getD before) C after) := by
  induction A with
  | nil => intro before; simp [Linked]
  | cons p rest ih =>
    intro before
    simp only [List.cons_append, Linked, getLast?_cons_getD]
    constructor
    · rintro ⟨nd, hnd, hprev, hnext, hrest⟩
      obtain ⟨h1, h2⟩ := (ih p).1 hrest
      refine ⟨⟨nd, hnd, hprev, ?_, h1⟩, h2⟩
      rw [hnext]
      cases rest <;> simp
    · rintro ⟨⟨nd, hnd, hprev, hnext, h1⟩, h2⟩
      refine ⟨nd, hnd, hprev, ?_, (ih p).2 ⟨h1, h2⟩⟩
      rw [hnext]
      cases rest <;> simp

end WalkLemmas

/-! ## Well linked lists -/

section WellLinkedLemmas

variable {T : Type}

theorem store_len (l : DLL T) (p : Ptr) (n : Node T) : (l.store p n).len = l.len := by
  cases p <;> rfl

theorem store_heap_length (l : DLL T) (p : Ptr) (n : Node T) :
    (l.store p n).heap.length = l.heap.length := by
  cases p <;> simp [DLL.store]

theorem head_eq_of_load (l l1 : DLL T) (h : l1.load .head = l.load .head) : l1.head = l.head :=
  Option.some.inj h

theorem tail_eq_of_load (l l1 : DLL T) (h : l1.load .tail = l.load .tail) : l1.tail = l.tail :=
  Option.some.inj h

theorem isReal_ne_head (p : Ptr) (h : p.isReal = true) : p ≠ .head := by
  rintro rfl
  simp [Ptr.isReal] at h

theorem isReal_ne_node_one (p : Ptr) (h : p.isReal = true) : p ≠ .node 1 := by
  rintro rfl
  simp [Ptr.isReal] at h

theorem isReal_ne_node_zero (p : Ptr) (h : p.isReal = true) : p ≠ .node 0 := by
  rintro rfl
  simp [Ptr.isReal] at h

theorem isReal_ne_tail (p : Ptr) (h : p.isReal = true) : p ≠ .tail := by
  rintro rfl
  simp [Ptr.isReal] at h

theorem isReal_ne_nil (p : Ptr) (h : p.isReal = true) : p ≠ .nil := by
  rintro rfl
  simp [Ptr.isReal] at h

theorem filter_isReal_of_all (ps : List Ptr) (h : ∀ p ∈ ps, p.isReal = true) :
    ps.filter Ptr.isReal = ps :=
  List.filter_eq_self.2 h

/-- The forward walk of a well linked list meets exactly its real nodes, in order. -/
theorem WellLinked_realNodes {l : DLL T} {ps : List Ptr} (h : WellLinked l ps) :
    l.realNodes = ps := by
  obtain ⟨t, ht, htn⟩ := h.dummy
  have hfuel : l.heap.length + 1 = ps.length + (l.heap.length + 1 - ps.length) := by
    have := h.room
    omega
  have hn : ∃ m, l.heap.length + 1 - ps.length = m + 1 := ⟨l.heap.length - ps.length, by
    have := h.room
    omega⟩
  obtain ⟨m, hm⟩ := hn
  unfold DLL.realNodes
  rw [h.headNext, hfuel, walkNext_linked l (.node 1) ps .head _ h.linked, hm]
  simp only [DLL.walkNext, DLL.load, ht, htn, walkNext_nil]
  rw [List.filter_append, filter_isReal_of_all ps h.real]
  simp [Ptr.isReal]

/-- The backward walk of a well linked list meets its real nodes in reverse order. -/
theorem WellLinked_realNodesBack {l : DLL T} {ps : List Ptr} (h : WellLinked l ps) :
    l.realNodesBack = ps.reverse := by
  unfold DLL.realNodesBack
  rw [WellLinked_realNodes h]
  cases hl : ps.getLast? with
  | none =>
    have : ps = [] := List.getLast?_eq_none_iff.1 hl
    simp [this]
  | some last =>
    have hfuel : l.heap.length + 1 = ps.length + (l.heap.length + 1 - ps.length) := by
      have := h.room
      omega
    obtain ⟨m, hm⟩ : ∃ m, l.heap.length + 1 - ps.length = m + 1 :=
      ⟨l.heap.length - ps.length, by have := h.room; omega⟩
    have hw := walkPrev_linked l (.node 1) ps .head (m + 1) h.linked
    rw [hl] at hw
    simp only [Option.getD_some] at hw
    simp only []
    rw [hfuel, hm, hw]
    simp only [DLL.walkPrev, DLL.load, h.headPrev, walkPrev_nil]
    rw [List.filter_append, filter_isReal_of_all ps.reverse
      (fun p hp => h.real p (List.mem_reverse.1 hp))]
    simp [Ptr.isReal]

/-- Rewriting the `prev` link of the first node of a segment. -/
theorem Linked_set_head_prev (l : DLL T) (before b1 after p : Ptr) (rest : List Ptr)
    (nd : Node T) (h : Linked l before (p :: rest) after) (hp : p ∉ rest)
    (hnd : l.load p = some nd) :
    Linked (l.store p { nd with prev := b1 }) b1 (p :: rest) after := by
  obtain ⟨nd1, hnd1, _, hnext, hrest⟩ := h
  have : nd1 = nd := by rw [hnd] at hnd1; exact (Option.some.inj hnd1).symm
  subst this
  refine ⟨_, load_store_same l p _ nd1 hnd, rfl, hnext, ?_⟩
  refine Linked_congr l _ after rest p ?_ hrest
  intro q hq
  exact load_store_ne l p q _ (fun e => hp (e ▸ hq))

/-- Rewriting the `next` link of the last node of a segment; `pb` is that node, or
`before` when the segment is empty. -/
theorem Linked_set_last_next (l : DLL T) (after x : Ptr) (A : List Ptr) :
    ∀ (before : Ptr) (pn : Node T), Linked l before A after → A.Nodup →
      l.load (A.getLast?.getD before) = some pn →
      Linked (l.store (A.getLast?.getD before) { pn with next := x }) before A x := by
  induction A with
  | nil => intro _ _ _ _ _; trivial
  | cons p rest ih =>
    intro before pn h hnd hpn
    obtain ⟨nd, hload, hprev, hnext, hrest⟩ := h
    rw [getLast?_cons_getD] at hpn ⊢
    cases rest with
    | nil =>
      simp only [List.getLast?_nil, Option.getD_none] at hpn ⊢
      have : pn = nd := by rw [hload] at hpn; exact (Option.some.inj hpn).symm
      subst this
      exact ⟨_, load_store_same l p _ pn hload, hprev, rfl, trivial⟩
    | cons q rest =>
      have hne : p ≠ (q :: rest).getLast?.getD p := by
        rw [List.getLast?_eq_getLast _ (List.cons_ne_nil q rest)]
        simp only [Option.getD_some]
        intro e
        have hmem : p ∈ q :: rest := e ▸ List.getLast_mem (List.cons_ne_nil q rest)
        exact (List.nodup_cons.1 hnd).1 hmem
      refine ⟨nd, ?_, hprev, hnext, ih p pn hrest (List.nodup_cons.1 hnd).2 hpn⟩
      rw [load_store_ne l _ p _ hne]
      exact hload

end WellLinkedLemmas

section WellLinkedOps

variable {T : Type}

theorem WellLinked_new [Inhabited T] : WellLinked (NewDoublyLinkedList : DLL T) [] :=
  ⟨rfl, rfl, ⟨_, rfl, rfl⟩, trivial, by simp, List.nodup_nil, by simp [NewDoublyLinkedList],
    rfl, ⟨_, rfl, rfl⟩, rfl⟩

/-- The front sentinel of a well linked list points to a heap node other than
the one at address 0: the first real node, or the dummy tail at address 1. -/
theorem WellLinked_front {l : DLL T} {ps : List Ptr} (h : WellLinked l ps) :
    ∃ a first, l.head.next = .node a ∧ 1 ≤ a ∧ l.heap[a]? = some first ∧
      ps.head?.getD (.node 1) = .node a := by
  cases ps with
  | nil =>
    obtain ⟨t, ht, _⟩ := h.dummy
    exact ⟨1, t, h.headNext, le_refl 1, ht, rfl⟩
  | cons p rest =>
    obtain ⟨nd, hnd, _⟩ := h.linked
    have hr := h.real p (List.mem_cons_self _ _)
    cases p with
    | node a =>
      simp only [Ptr.isReal, decide_eq_true_eq] at hr
      exact ⟨a, nd, h.headNext, by omega, hnd, rfl⟩
    | nil => simp [Ptr.isReal] at hr
    | head => simp [Ptr.isReal] at hr
    | tail => simp [Ptr.isReal] at hr

/-- The method `InsertAtFront` on a well linked list: it returns the new node, which becomes
the first real node; the list stays well linked. -/
theorem WellLinked_insert {l : DLL T} {ps : List Ptr} (x : T) (h : WellLinked l ps) :
    ∃ a first l1, l.head.next = .node a ∧ l.heap[a]? = some first ∧
      l.InsertAtFront x = .ret l1 (.node l.heap.length, none) ∧
      l1 = { l with
        heap := (l.heap ++
          [({ prev := .head, next := .node a, list := .l, Value := x } : Node T)]).set a
            { first with prev := .node l.heap.length },
        head := { l.head with next := .node l.heap.length },
        len := l.len + 1 } ∧
      WellLinked l1 (.node l.heap.length :: ps) := by
  obtain ⟨a, first, h1, ha, h2, hps⟩ := WellLinked_front h
  refine ⟨a, first, _, h1, h2, InsertAtFront_node l a first x h1 h2, rfl, ?_⟩
  have hlt : a < l.heap.length := (List.getElem?_eq_some.1 h2).1
  have hne : a ≠ l.heap.length := by omega
  -- loads in the new state
  generalize hnn : ({ prev := .head, next := .node a, list := .l, Value := x } : Node T) = new
  have hold : ∀ b nd, b ≠ a → l.heap[b]? = some nd →
      ((l.heap ++ [new]).set a { first with prev := .node l.heap.length })[b]? = some nd := by
    intro b nd hb hnd
    rw [List.getElem?_set_ne (fun e => hb e.symm),
      List.getElem?_append_left (List.getElem?_eq_some.1 hnd).1]
    exact hnd
  have hnew : ((l.heap ++ [new]).set a { first with prev := .node l.heap.length })[l.heap.length]?
      = some new := by
    rw [List.getElem?_set_ne hne]
    simp
  have hfirst : ((l.heap ++ [new]).set a { first with prev := .node l.heap.length })[a]?
      = some { first with prev := .node l.heap.length } := by
    rw [List.getElem?_set_self (by simp; omega)]
  obtain ⟨t, ht, htn⟩ := h.dummy
  obtain ⟨nd0, h0, hp0⟩ := h.heap0
  refine ⟨h.headPrev, rfl, ?_, ?_, ?_, ?_, ?_, h.tailPrev, ?_, ?_⟩
  · -- the dummy tail keeps a nil next
    by_cases ha1 : a = 1
    · subst ha1
      have : first = t := by rw [h2] at ht; exact Option.some.inj ht
      exact ⟨_, hfirst, by rw [this]; exact htn⟩
    · exact ⟨t, hold 1 t (fun e => ha1 e.symm) ht, htn⟩
  · -- the segment
    refine ⟨_, hnew, by rw [← hnn], ?_, ?_⟩
    · rw [← hnn]
      exact hps.symm
    · cases ps with
      | nil => trivial
      | cons p rest =>
        simp only [List.head?_cons, Option.getD_some] at hps
        subst hps
        have hl := h.linked
        obtain ⟨nd, hnd, _, hnext, hrest⟩ := hl
        have hnd1 : nd = first := by
          simp only [DLL.load] at hnd
          rw [h2] at hnd
          exact (Option.some.inj hnd).symm
        subst hnd1
        refine ⟨_, hfirst, rfl, hnext, ?_⟩
        refine Linked_congr l _ (.node 1) rest (.node a) ?_ hrest
        intro q hq
        obtain ⟨ndq, hndq⟩ := Linked_load l (.node 1) rest (.node a) hrest q hq
        have hqa : q ≠ .node a := fun e => (List.nodup_cons.1 h.nodup).1 (e ▸ hq)
        cases q with
        | node b =>
          simp only [DLL.load] at hndq ⊢
          rw [hold b ndq (fun e => hqa (by rw [e])) hndq, hndq]
        | nil => rfl
        | head => exact absurd (h.real _ (List.mem_cons_of_mem _ hq)) (by simp [Ptr.isReal])
        | tail => rfl
  · intro p hp
    rcases List.mem_cons.1 hp with rfl | hin
    · have := h.room
      simp only [Ptr.isReal, decide_eq_true_eq]
      omega
    · exact h.real p hin
  · refine List.nodup_cons.2 ⟨?_, h.nodup⟩
    intro hin
    obtain ⟨nd, hnd⟩ := Linked_load l (.node 1) ps .head h.linked _ hin
    simp only [DLL.load] at hnd
    have := (List.getElem?_eq_some.1 hnd).1
    omega
  · have := h.room
    simp only [List.length_cons, List.length_set, List.length_append, List.length_singleton]
    omega
  · exact ⟨nd0, hold 0 nd0 (by omega) h0, hp0⟩
  · simp only [List.length_cons]
    rw [h.lenEq]
    push_cast
    rfl

end WellLinkedOps

section WellLinkedRemove

variable {T : Type}

theorem build_append [Inhabited T] (xs : List T) (x : T) :
    build (xs ++ [x]) = ((build xs).InsertAtFront x).state := by
  simp [build, List.foldl_append]

/-- A list built by `InsertAtFront` calls is well linked, with one real node per call. -/
theorem WellLinked_build [Inhabited T] (xs : List T) :
    ∃ ps, WellLinked (build xs) ps ∧ ps.length = xs.length := by
  induction xs using List.reverseRecOn with
  | nil => exact ⟨[], WellLinked_new, rfl⟩
  | append_singleton xs x ih =>
    obtain ⟨ps, hw, hlen⟩ := ih
    obtain ⟨a, first, l1, _, _, hins, _, hw1⟩ := WellLinked_insert x hw
    refine ⟨.node (build xs).heap.length :: ps, ?_, ?_⟩
    · rw [build_append, hins]
      exact hw1
    · simp [hlen]

theorem getLastD_cases (A : List Ptr) (b : Ptr) :
    (A.getLast?.getD b = b ∧ A = []) ∨ A.getLast?.getD b ∈ A := by
  cases A with
  | nil => exact Or.inl ⟨rfl, rfl⟩
  | cons p rest =>
    right
    rw [List.getLast?_eq_getLast _ (List.cons_ne_nil p rest)]
    exact List.getLast_mem _

theorem headD_cases (B : List Ptr) (a : Ptr) :
    (B.head?.getD a = a ∧ B = []) ∨ B.head?.getD a ∈ B := by
  cases B with
  | nil => exact Or.inl ⟨rfl, rfl⟩
  | cons p rest => exact Or.inr (List.mem_cons_self _ _)

/-- The method `Remove` on a real node of a well linked list: it returns no error, and the
list is well linked with the same real nodes but that one. -/
theorem WellLinked_remove {l : DLL T} {ps : List Ptr} (n : Ptr) (h : WellLinked l ps)
    (hn : n ∈ ps) :
    ∃ l1, l.Remove n = .ret l1 none ∧ WellLinked l1 (ps.erase n) ∧ l1.len = l.len - 1 := by
  obtain ⟨A, B, rfl⟩ := List.append_of_mem hn
  have hnd := h.nodup
  have hnA : n ∉ A := fun hin =>
    (List.disjoint_of_nodup_append hnd) hin (List.mem_cons_self _ _)
  have hnB : n ∉ B := (List.nodup_cons.1 (List.Nodup.of_append_right hnd)).1
  have hAnd : A.Nodup := List.Nodup.of_append_left hnd
  have hBnd : B.Nodup := (List.nodup_cons.1 (List.Nodup.of_append_right hnd)).2
  have hAB : ∀ p, p ∈ A → p ∉ B := fun p hpA hpB =>
    (List.disjoint_of_nodup_append hnd) hpA (List.mem_cons_of_mem _ hpB)
  have hrealA : ∀ p ∈ A, p.isReal = true := fun p hp => h.real p (List.mem_append_left _ hp)
  have hrealB : ∀ p ∈ B, p.isReal = true :=
    fun p hp => h.real p (List.mem_append_right _ (List.mem_cons_of_mem _ hp))
  have hnr : n.isReal = true := h.real n hn
  obtain ⟨hA, hnB1⟩ := (Linked_append l (.node 1) A (n :: B) .head).1 h.linked
  simp only [List.head?_cons, Option.getD_some] at hA
  obtain ⟨nd, hload, hprev, hnext, hB⟩ := hnB1
  obtain ⟨t, ht, htn⟩ := h.dummy
  obtain ⟨nd0, h0, hp0⟩ := h.heap0
  have hheadNext := h.headNext
  -- name the two neighbours of n
  have hpbc := getLastD_cases A .head
  have hpac := headD_cases B (.node 1)
  have hLast := Linked_set_last_next l n (B.head?.getD (.node 1)) A .head
  generalize hpbdef : A.getLast?.getD .head = pb at hprev hpbc hLast
  generalize hpadef : B.head?.getD (.node 1) = pa at hnext hpac hLast hA
  have hpb_load : ∃ pn, l.load pb = some pn := by
    rcases hpbc with ⟨rfl, _⟩ | hin
    · exact ⟨l.head, rfl⟩
    · exact Linked_load l n A .head hA pb hin
  have hpa_load : ∃ qn, l.load pa = some qn := by
    rcases hpac with ⟨rfl, _⟩ | hin
    · exact ⟨t, ht⟩
    · exact Linked_load l (.node 1) B n hB pa hin
  obtain ⟨pn, hpn⟩ := hpb_load
  obtain ⟨qn, hqn⟩ := hpa_load
  have hpb_ne_n : pb ≠ n := by
    rcases hpbc with ⟨rfl, _⟩ | hin
    · exact (isReal_ne_head n hnr).symm
    · exact fun e => hnA (e ▸ hin)
  have hpb_notin_B : pb ∉ B := by
    rcases hpbc with ⟨rfl, _⟩ | hin
    · exact fun hin => isReal_ne_head _ (hrealB _ hin) rfl
    · exact hAB pb hin
  have hpa_ne_n : pa ≠ n := by
    rcases hpac with ⟨rfl, _⟩ | hin
    · exact (isReal_ne_node_one n hnr).symm
    · exact fun e => hnB (e ▸ hin)
  have hpa_notin_A : pa ∉ A := by
    rcases hpac with ⟨rfl, _⟩ | hin
    · exact fun hin => isReal_ne_node_one _ (hrealA _ hin) rfl
    · exact fun hinA => hAB pa hinA hin
  have hpa_ne_pb : pa ≠ pb := by
    rcases hpbc with ⟨rfl, _⟩ | hin
    · rcases hpac with ⟨rfl, _⟩ | hin2
      · simp
      · exact isReal_ne_head _ (hrealB _ hin2)
    · exact fun e => hpa_notin_A (e ▸ hin)
  have hpb_special : ∀ q : Ptr, q = .tail ∨ q = .node 0 ∨ q = .node 1 → q ≠ pb := by
    intro q hq
    rcases hpbc with ⟨rfl, _⟩ | hin
    · rcases hq with rfl | rfl | rfl <;> simp
    · have hr := hrealA pb hin
      rintro rfl
      rcases hq with rfl | rfl | rfl <;> simp [Ptr.isReal] at hr
  have hpa_special : ∀ q : Ptr, q = .tail ∨ q = .node 0 ∨ q = .head → q ≠ pa := by
    intro q hq
    rcases hpac with ⟨rfl, _⟩ | hin
    · rcases hq with rfl | rfl | rfl <;> simp
    · have hr := hrealB pa hin
      rintro rfl
      rcases hq with rfl | rfl | rfl <;> simp [Ptr.isReal] at hr
  -- run the code
  have e1 : (l.store pb { pn with next := pa }).load n = some nd := by
    rw [load_store_ne _ _ _ _ hpb_ne_n.symm]
    exact hload
  have e2 : (l.store pb { pn with next := pa }).load pa = some qn := by
    rw [load_store_ne _ _ _ _ hpa_ne_pb]
    exact hqn
  have hrun : l.Remove n = .ret
      { ((l.store pb { pn with next := pa }).store pa { qn with prev := pb }) with
        len := l.len - 1 } none := by
    unfold DLL.Remove
    rw [if_neg (by
      rintro (e | e)
      · exact isReal_ne_head n hnr e
      · exact isReal_ne_tail n hnr e), if_neg (isReal_ne_nil n hnr)]
    simp only [hload, hprev, hpn, hnext, e1, e2, store_len]
  refine ⟨_, hrun, ?_, rfl⟩
  generalize hl2 : (l.store pb { pn with next := pa }).store pa { qn with prev := pb } = l2
  have hkeep : ∀ q, q ≠ pb → q ≠ pa → l2.load q = l.load q := by
    intro q h1 h2
    rw [← hl2, load_store_ne _ _ _ _ h2, load_store_ne _ _ _ _ h1]
  have hsame : ∀ q, ({ l2 with len := l.len - 1 } : DLL T).load q = l2.load q := by
    intro q
    cases q <;> rfl
  have hera : (A ++ n :: B).erase n = A ++ B := by
    rw [List.erase_append_right _ hnA, List.erase_cons_head]
  rw [hera]
  have hLA : Linked l2 .head A pa := by
    rw [← hl2]
    refine Linked_congr _ _ _ A .head ?_ (hLast pn hA hAnd hpn)
    intro p hp
    exact load_store_ne _ _ _ _ (fun e => hpa_notin_A (e ▸ hp))
  have hLB : Linked l2 pb B (.node 1) := by
    have hB1 : Linked (l.store pb { pn with next := pa }) n B (.node 1) := by
      refine Linked_congr l _ _ B n ?_ hB
      intro p hp
      exact load_store_ne _ _ _ _ (fun e => hpb_notin_B (e ▸ hp))
    rw [← hl2]
    cases B with
    | nil => trivial
    | cons f rest =>
      simp only [List.head?_cons, Option.getD_some] at hpadef
      subst hpadef
      exact Linked_set_head_prev _ n _ (.node 1) f rest qn hB1 (List.nodup_cons.1 hBnd).1 e2
  have hlen2 : l2.heap.length = l.heap.length := by
    rw [← hl2, store_heap_length, store_heap_length]
  have hhead : l2.head = if pb = .head then { l.head with next := pa } else l.head := by
    apply Option.some.inj
    show l2.load .head = _
    rw [← hl2, load_store_ne _ _ _ _ (hpa_special .head (Or.inr (Or.inr rfl)))]
    by_cases hh : pb = .head
    · subst hh
      rw [if_pos rfl]
      have : pn = l.head := (Option.some.inj hpn).symm
      rw [this]
      rfl
    · rw [if_neg hh, load_store_ne _ _ _ _ (fun e => hh e.symm)]
      rfl
  have hLink : Linked ({ l2 with len := l.len - 1 } : DLL T) .head (A ++ B) (.node 1) := by
    refine Linked_congr l2 _ _ _ .head (fun p _ => hsame p) ?_
    refine (Linked_append _ (.node 1) A B .head).2 ⟨?_, ?_⟩
    · rw [hpadef]
      exact hLA
    · rw [hpbdef]
      exact hLB
  refine ⟨?_, ?_, ?_, hLink, ?_, ?_, ?_, ?_, ?_, ?_⟩
  · show l2.head.prev = Ptr.nil
    rw [hhead]
    split <;> exact h.headPrev
  · show l2.head.next = _
    rw [hhead]
    rcases hpbc with ⟨rfl, hA0⟩ | hin
    · subst hA0
      rw [if_pos rfl, List.nil_append, hpadef]
    · rw [if_neg (isReal_ne_head _ (hrealA _ hin)), hheadNext]
      cases A with
      | nil => simp at hin
      | cons p rest => rfl
  · show ∃ t, l2.heap[1]? = some t ∧ t.next = Ptr.nil
    by_cases hp1 : pa = .node 1
    · subst hp1
      have hq : qn = t := by
        simp only [DLL.load] at hqn
        rw [ht] at hqn
        exact (Option.some.inj hqn).symm
      have e := load_store_same (l.store pb { pn with next := .node 1 })
        (.node 1) { qn with prev := pb } qn e2
      rw [hl2] at e
      simp only [DLL.load] at e
      exact ⟨_, e, by rw [hq]; exact htn⟩
    · have := hkeep (.node 1) (hpb_special _ (Or.inr (Or.inr rfl))) (fun e => hp1 e.symm)
      simp only [DLL.load] at this
      exact ⟨t, by rw [this]; exact ht, htn⟩
  · intro p hp
    rcases List.mem_append.1 hp with hin | hin
    · exact hrealA p hin
    · exact hrealB p hin
  · exact List.Nodup.append hAnd hBnd (fun p hpA hpB => hAB p hpA hpB)
  · show (A ++ B).length + 2 ≤ l2.heap.length
    rw [hlen2]
    have := h.room
    simp only [List.length_append, List.length_cons] at this ⊢
    omega
  · show l2.tail.prev = Ptr.node 0
    have := hkeep .tail (hpb_special _ (Or.inl rfl)) (hpa_special _ (Or.inl rfl))
    rw [tail_eq_of_load l l2 this]
    exact h.tailPrev
  · show ∃ nd, l2.heap[0]? = some nd ∧ nd.prev = Ptr.nil
    have := hkeep (.node 0) (hpb_special _ (Or.inr (Or.inl rfl)))
      (hpa_special _ (Or.inr (Or.inl rfl)))
    simp only [DLL.load] at this
    exact ⟨nd0, by rw [this]; exact h0, hp0⟩
  · show l.len - 1 = _
    rw [h.lenEq]
    simp only [List.length_append, List.length_cons]
    push_cast
    ring

end WellLinkedRemove

section WellLinkedMove

variable {T : Type}

theorem dropWhile_ne_append (n : Ptr) (A B : List Ptr) (h : n ∉ A) :
    (A ++ n :: B).dropWhile (fun p => decide (p ≠ n)) = n :: B := by
  induction A with
  | nil => simp [List.dropWhile]
  | cons p rest ih =>
    have hp : p ≠ n := fun e => h (e ▸ List.mem_cons_self _ _)
    have hr : n ∉ rest := fun hin => h (List.mem_cons_of_mem _ hin)
    simp only [List.cons_append, List.dropWhile_cons, hp, ne_eq, not_false_eq_true,
      decide_True, if_true]
    exact ih hr

/-- The method `MoveToFront` on a real node of a well linked list: it returns no error and
leaves `len` alone, but the forward walk then starts at that node and goes on
with the nodes that were behind it: the nodes that were in front of it are no
longer met. -/
theorem WellLinked_move {l : DLL T} {ps : List Ptr} (n : Ptr) (h : WellLinked l ps)
    (hn : n ∈ ps) :
    ∃ l1, l.MoveToFront n = .ret l1 none ∧ l1.len = l.len ∧
      l1.realNodes = ps.dropWhile (fun p => decide (p ≠ n)) := by
  obtain ⟨a, first, h1, ha, h2, hps⟩ := WellLinked_front h
  obtain ⟨A, B, rfl⟩ := List.append_of_mem hn
  have hnd := h.nodup
  have hnA : n ∉ A := fun hin =>
    (List.disjoint_of_nodup_append hnd) hin (List.mem_cons_self _ _)
  have hnB : n ∉ B := (List.nodup_cons.1 (List.Nodup.of_append_right hnd)).1
  have hnr : n.isReal = true := h.real n hn
  obtain ⟨t, ht, htn⟩ := h.dummy
  obtain ⟨_, hnB1⟩ := (Linked_append l (.node 1) A (n :: B) .head).1 h.linked
  have hrun := MoveToFront_node l a first n h1 h2 (isReal_ne_nil n hnr)
  refine ⟨_, hrun, rfl, ?_⟩
  rw [dropWhile_ne_append n A B hnA]
  -- the node written is the first real node
  have hfirst_mem : Ptr.node a ∈ A ++ n :: B := by
    have := headD_cases (A ++ n :: B) (.node 1)
    rw [hps] at this
    rcases this with ⟨_, h0⟩ | hin
    · simp at h0
    · exact hin
  have ha2 : 2 ≤ a := by
    have := h.real _ hfirst_mem
    simpa [Ptr.isReal] using this
  generalize hl1 : ({ l with heap := l.heap.set a { first with prev := n },
                             head := { l.head with next := n } } : DLL T) = l1
  have hloads : ∀ q, q ≠ .head → l1.load q = (l.store (.node a) { first with prev := n }).load q := by
    intro q hq
    rw [← hl1]
    cases q with
    | head => exact absurd rfl hq
    | nil => rfl
    | tail => rfl
    | node b => rfl
  have hseg : ∃ b1, Linked l1 b1 (n :: B) (.node 1) := by
    have hcongr : ∀ b1, Linked (l.store (.node a) { first with prev := n }) b1 (n :: B) (.node 1) →
        Linked l1 b1 (n :: B) (.node 1) := by
      intro b1 hb1
      refine Linked_congr _ l1 _ _ b1 ?_ hb1
      intro q hq
      exact hloads q (isReal_ne_head q (h.real q (List.mem_append_right _ hq)))
    cases A with
    | nil =>
      simp only [List.nil_append, List.head?_cons, Option.getD_some] at hps
      have h2n : l.load n = some first := by rw [hps]; exact h2
      rw [← hps] at hcongr
      exact ⟨_, hcongr _ (Linked_set_head_prev l _ n (.node 1) n B first hnB1 hnB h2n)⟩
    | cons p rest =>
      simp only [List.cons_append, List.head?_cons, Option.getD_some] at hps
      refine ⟨_, hcongr _ (Linked_congr l _ _ _ _ ?_ hnB1)⟩
      intro q hq
      refine load_store_ne l _ q _ ?_
      intro e
      have hpq : p ∈ n :: B := by rw [hps, ← e]; exact hq
      have : (p :: rest ++ n :: B).Nodup := hnd
      exact (List.disjoint_of_nodup_append this) (List.mem_cons_self _ _) hpq
  obtain ⟨b1, hseg1⟩ := hseg
  have hlen : l1.heap.length = l.heap.length := by
    rw [← hl1]
    simp
  have hdummy : l1.heap[1]? = some t := by
    rw [← hl1]
    simp only []
    rw [List.getElem?_set_ne (by omega)]
    exact ht
  have hroom := h.room
  simp only [List.length_append, List.length_cons] at hroom
  obtain ⟨m, hm⟩ : ∃ m, l1.heap.length + 1 = (n :: B).length + (m + 1) :=
    ⟨l1.heap.length - (n :: B).length, by
      rw [hlen]
      simp only [List.length_cons]
      omega⟩
  have hw := walkNext_linked l1 (.node 1) (n :: B) b1 (m + 1) hseg1
  simp only [List.head?_cons, Option.getD_some] at hw
  have hhead : l1.head.next = n := by rw [← hl1]
  unfold DLL.realNodes
  rw [hhead, hm, hw]
  simp only [DLL.walkNext, DLL.load, hdummy, htn, walkNext_nil]
  rw [List.filter_append, filter_isReal_of_all (n :: B)
    (fun p hp => h.real p (List.mem_append_right _ hp))]
  simp [Ptr.isReal]

end WellLinkedMove

/-! ## Reachable list states -/

section HandledLemmas

variable {T : Type}

theorem ListInv_new [Inhabited T] : ListInv (NewDoublyLinkedList : DLL T) [] := by
  refine ⟨rfl, ⟨_, rfl, rfl⟩, ⟨1, rfl, le_refl 1, by simp [NewDoublyLinkedList]⟩, by simp, ?_, ?_⟩
  · intro a nd ha h
    have := (List.getElem?_eq_some.1 h).1
    simp [NewDoublyLinkedList] at this
    omega
  · intro a nd ha h
    have := (List.getElem?_eq_some.1 h).1
    simp [NewDoublyLinkedList] at this
    omega

/-- Writing a `prev` link of a heap node other than the one at address 0. -/
theorem ListInv_setPrev {l : DLL T} {hs : List Ptr} (h : ListInv l hs) (a : Nat) (nd : Node T)
    (v : Ptr) (ha : 1 ≤ a) (hnd : l.heap[a]? = some nd)
    (hv : v = .head ∨ ∃ b, v = .node b ∧ 2 ≤ b ∧ b < l.heap.length) :
    ListInv (l.store (.node a) { nd with prev := v }) hs := by
  obtain ⟨nd0, h0, hp0⟩ := h.heap0
  have hlen : (l.store (.node a) { nd with prev := v }).heap.length = l.heap.length :=
    store_heap_length _ _ _
  refine ⟨h.tailPrev, ⟨nd0, ?_, hp0⟩, ?_, ?_, ?_, ?_⟩
  · simp only [DLL.store]
    rw [List.getElem?_set_ne (by omega)]
    exact h0
  · rw [hlen]
    exact h.front
  · rw [hlen]
    exact h.handles
  · intro b ndb hb hndb
    rw [hlen]
    simp only [DLL.store] at hndb
    by_cases hab : a = b
    · subst hab
      rw [List.getElem?_set_self (List.getElem?_eq_some.1 hnd).1] at hndb
      have := Option.some.inj hndb
      rw [← this]
      exact h.nexts a nd hb hnd
    · rw [List.getElem?_set_ne hab] at hndb
      exact h.nexts b ndb hb hndb
  · intro b ndb hb hndb
    rw [hlen]
    simp only [DLL.store] at hndb
    by_cases hab : a = b
    · subst hab
      rw [List.getElem?_set_self (List.getElem?_eq_some.1 hnd).1] at hndb
      have := Option.some.inj hndb
      rw [← this]
      exact hv
    · rw [List.getElem?_set_ne hab] at hndb
      exact h.prevs b ndb hb hndb

/-- Writing a `next` link of a real node. -/
theorem ListInv_setNext {l : DLL T} {hs : List Ptr} (h : ListInv l hs) (a : Nat) (nd : Node T)
    (v : Ptr) (ha : 2 ≤ a) (hnd : l.heap[a]? = some nd)
    (hv : ∃ b, v = .node b ∧ 1 ≤ b ∧ b < l.heap.length) :
    ListInv (l.store (.node a) { nd with next := v }) hs := by
  obtain ⟨nd0, h0, hp0⟩ := h.heap0
  have hlen : (l.store (.node a) { nd with next := v }).heap.length = l.heap.length :=
    store_heap_length _ _ _
  refine ⟨h.tailPrev, ⟨nd0, ?_, hp0⟩, ?_, ?_, ?_, ?_⟩
  · simp only [DLL.store]
    rw [List.getElem?_set_ne (by omega)]
    exact h0
  · rw [hlen]
    exact h.front
  · rw [hlen]
    exact h.handles
  · intro b ndb hb hndb
    rw [hlen]
    simp only [DLL.store] at hndb
    by_cases hab : a = b
    · subst hab
      rw [List.getElem?_set_self (List.getElem?_eq_some.1 hnd).1] at hndb
      have := Option.some.inj hndb
      rw [← this]
      exact hv
    · rw [List.getElem?_set_ne hab] at hndb
      exact h.nexts b ndb hb hndb
  · intro b ndb hb hndb
    rw [hlen]
    simp only [DLL.store] at hndb
    by_cases hab : a = b
    · subst hab
      rw [List.getElem?_set_self (List.getElem?_eq_some.1 hnd).1] at hndb
      have := Option.some.inj hndb
      rw [← this]
      exact h.prevs a nd hb hnd
    · rw [List.getElem?_set_ne hab] at hndb
      exact h.prevs b ndb hb hndb

/-- Writing `l.head.next`. -/
theorem ListInv_setHeadNext {l : DLL T} {hs : List Ptr} (h : ListInv l hs) (v : Ptr)
    (hv : ∃ b, v = .node b ∧ 1 ≤ b ∧ b < l.heap.length) :
    ListInv ({ l with head := { l.head with next := v } } : DLL T) hs :=
  ⟨h.tailPrev, h.heap0, hv, h.handles, h.nexts, h.prevs⟩

theorem ListInv_setLen {l : DLL T} {hs : List Ptr} (h : ListInv l hs) (x : Int) :
    ListInv ({ l with len := x } : DLL T) hs :=
  ⟨h.tailPrev, h.heap0, h.front, h.handles, h.nexts, h.prevs⟩

/-- Allocating a node with good links: its address joins the handles. -/
theorem ListInv_alloc {l : DLL T} {hs : List Ptr} (h : ListInv l hs) (new : Node T)
    (hn : ∃ b, new.next = .node b ∧ 1 ≤ b ∧ b < l.heap.length) (hp : new.prev = .head) :
    ListInv ({ l with heap := l.heap ++ [new] } : DLL T) (.node l.heap.length :: hs) := by
  obtain ⟨nd0, h0, hp0⟩ := h.heap0
  obtain ⟨a, hfa, ha1, halt⟩ := h.front
  have hget : ∀ b nd, (l.heap ++ [new])[b]? = some nd → b < l.heap.length ∧ l.heap[b]? = some nd ∨
      b = l.heap.length ∧ nd = new := by
    intro b nd hb
    by_cases hlt : b < l.heap.length
    · rw [List.getElem?_append_left hlt] at hb
      exact Or.inl ⟨hlt, hb⟩
    · have hb1 := (List.getElem?_eq_some.1 hb).1
      simp only [List.length_append, List.length_singleton] at hb1
      have hbe : b = l.heap.length := by omega
      subst hbe
      simp at hb
      exact Or.inr ⟨rfl, hb.symm⟩
  refine ⟨h.tailPrev, ⟨nd0, ?_, hp0⟩, ⟨a, hfa, ha1, ?_⟩, ?_, ?_, ?_⟩
  · simp only []
    rw [List.getElem?_append_left (by omega)]
    exact h0
  · simp only [List.length_append, List.length_singleton]
    omega
  · intro n hn1
    simp only [List.length_append, List.length_singleton]
    rcases List.mem_cons.1 hn1 with rfl | hin
    · exact ⟨_, rfl, by omega, by omega⟩
    · obtain ⟨b, hb, hb2, hblt⟩ := h.handles n hin
      exact ⟨b, hb, hb2, by omega⟩
  · intro b nd hb hnd
    simp only [List.length_append, List.length_singleton]
    rcases hget b nd hnd with ⟨_, hold⟩ | ⟨_, rfl⟩
    · obtain ⟨c, hc, hc1, hclt⟩ := h.nexts b nd hb hold
      exact ⟨c, hc, hc1, by omega⟩
    · obtain ⟨c, hc, hc1, hclt⟩ := hn
      exact ⟨c, hc, hc1, by omega⟩
  · intro b nd hb hnd
    simp only [List.length_append, List.length_singleton]
    rcases hget b nd hnd with ⟨_, hold⟩ | ⟨_, rfl⟩
    · rcases h.prevs b nd hb hold with hh | ⟨c, hc, hc2, hclt⟩
      · exact Or.inl hh
      · exact Or.inr ⟨c, hc, hc2, by omega⟩
    · exact Or.inl hp

end HandledLemmas

section HandledOps

variable {T : Type}

/-- The method `MoveToFront` on a handle returns no error and keeps the invariant. -/
theorem ListInv_MoveToFront {l : DLL T} {hs : List Ptr} (h : ListInv l hs) (n : Ptr)
    (hn : n ∈ hs) :
    ∃ l1, l.MoveToFront n = .ret l1 none ∧ ListInv l1 hs ∧ l1.heap.length = l.heap.length := by
  obtain ⟨a, hfa, ha1, halt⟩ := h.front
  obtain ⟨c, hc, hc2, hclt⟩ := h.handles n hn
  obtain ⟨first, hfirst⟩ : ∃ first, l.heap[a]? = some first :=
    ⟨l.heap[a], List.getElem?_eq_getElem halt⟩
  have hrun := MoveToFront_node l a first n hfa hfirst (by rw [hc]; simp)
  have h1 := ListInv_setPrev h a first n ha1 hfirst (Or.inr ⟨c, hc, hc2, hclt⟩)
  have h2 := ListInv_setHeadNext h1 n ⟨c, hc, by omega, by rw [store_heap_length]; exact hclt⟩
  exact ⟨_, hrun, h2, by simp⟩

/-- The method `InsertAtFront` returns a new handle and keeps the invariant. -/
theorem ListInv_InsertAtFront {l : DLL T} {hs : List Ptr} (h : ListInv l hs) (x : T) :
    ∃ l1, l.InsertAtFront x = .ret l1 (.node l.heap.length, none) ∧
      ListInv l1 (.node l.heap.length :: hs) := by
  obtain ⟨a, hfa, ha1, halt⟩ := h.front
  obtain ⟨first, hfirst⟩ : ∃ first, l.heap[a]? = some first :=
    ⟨l.heap[a], List.getElem?_eq_getElem halt⟩
  have hrun := InsertAtFront_node l a first x hfa hfirst
  refine ⟨_, hrun, ?_⟩
  generalize hnew : ({ prev := .head, next := .node a, list := .l, Value := x } : Node T) = new
  have h1 := ListInv_alloc h new ⟨a, by rw [← hnew], ha1, halt⟩ (by rw [← hnew])
  have hfirst1 : ({ l with heap := l.heap ++ [new] } : DLL T).heap[a]? = some first := by
    simp only []
    rw [List.getElem?_append_left halt]
    exact hfirst
  have h2 := ListInv_setPrev h1 a first (.node l.heap.length) ha1 hfirst1
    (Or.inr ⟨l.heap.length, rfl, by omega, by simp⟩)
  have h3 := ListInv_setHeadNext h2 (.node l.heap.length)
    ⟨l.heap.length, rfl, by omega, by rw [store_heap_length]; simp⟩
  exact ListInv_setLen h3 (l.len + 1)

/-- The method `Remove` on a handle returns no error and keeps the invariant. -/
theorem ListInv_Remove {l : DLL T} {hs : List Ptr} (h : ListInv l hs) (n : Ptr)
    (hn : n ∈ hs) :
    ∃ l1, l.Remove n = .ret l1 none ∧ ListInv l1 hs ∧ l1.heap.length = l.heap.length := by
  obtain ⟨c, hc, hc2, hclt⟩ := h.handles n hn
  subst hc
  obtain ⟨nd, hnd⟩ : ∃ nd, l.heap[c]? = some nd := ⟨l.heap[c], List.getElem?_eq_getElem hclt⟩
  have hnext := h.nexts c nd hc2 hnd
  -- the first assignment
  have hstep1 : ∃ pn, l.load nd.prev = some pn ∧
      ListInv (l.store nd.prev { pn with next := nd.next }) hs := by
    rcases h.prevs c nd hc2 hnd with hh | ⟨b, hb, hb2, hblt⟩
    · rw [hh]
      exact ⟨l.head, rfl, ListInv_setHeadNext h nd.next hnext⟩
    · rw [hb]
      exact ⟨l.heap[b], List.getElem?_eq_getElem hblt,
        ListInv_setNext h b _ nd.next hb2 (List.getElem?_eq_getElem hblt) hnext⟩
  obtain ⟨pn, hpn, hI1⟩ := hstep1
  generalize hl1 : l.store nd.prev { pn with next := nd.next } = l1 at hI1
  have hlen1 : l1.heap.length = l.heap.length := by rw [← hl1, store_heap_length]
  have hclt1 : c < l1.heap.length := by rw [hlen1]; exact hclt
  obtain ⟨nd1, hnd1⟩ : ∃ nd1, l1.heap[c]? = some nd1 :=
    ⟨l1.heap[c], List.getElem?_eq_getElem hclt1⟩
  obtain ⟨b1, hb1, hb11, hb1lt⟩ := hI1.nexts c nd1 hc2 hnd1
  obtain ⟨q, hq⟩ : ∃ q, l1.heap[b1]? = some q := ⟨l1.heap[b1], List.getElem?_eq_getElem hb1lt⟩
  have hI2 := ListInv_setPrev hI1 b1 q nd1.prev hb11 hq (hI1.prevs c nd1 hc2 hnd1)
  have hrun : l.Remove (.node c) = .ret
      { (l1.store (.node b1) { q with prev := nd1.prev }) with len := l.len - 1 } none := by
    have hload : l.load (.node c) = some nd := hnd
    have hload1 : l1.load (.node c) = some nd1 := hnd1
    have hq1 : l1.load (.node b1) = some q := hq
    have e : l1.len = l.len := by rw [← hl1, store_len]
    unfold DLL.Remove
    rw [if_neg (by simp), if_neg (by simp)]
    simp only [hload, hpn, hl1, hload1, hb1, hq1, store_len, e]
  refine ⟨_, hrun, ListInv_setLen hI2 _, ?_⟩
  simp only []
  rw [store_heap_length, hlen1]

theorem handlesAfterInsert_eq {l : DLL T} {hs : List Ptr} (h : ListInv l hs) (x : T) :
    l.handlesAfterInsert x hs = .node l.heap.length :: hs := by
  obtain ⟨l1, hrun, _⟩ := ListInv_InsertAtFront h x
  simp only [DLL.handlesAfterInsert, hrun]

/-- Every reachable list state satisfies the invariant. -/
theorem Handled_inv [Inhabited T] {l : DLL T} {hs : List Ptr} (h : Handled l hs) :
    ListInv l hs := by
  induction h with
  | new => exact ListInv_new
  | insert l hs x _ ih =>
    obtain ⟨l1, hrun, hI⟩ := ListInv_InsertAtFront ih x
    rw [handlesAfterInsert_eq ih, hrun]
    exact hI
  | move l hs n _ hn ih =>
    obtain ⟨l1, hrun, hI, _⟩ := ListInv_MoveToFront ih n hn
    rw [hrun]
    exact hI
  | remove l hs n _ hn ih =>
    obtain ⟨l1, hrun, hI, _⟩ := ListInv_Remove ih n hn
    rw [hrun]
    exact hI

end HandledOps

section BuiltLists

variable {T : Type}

/-- The last node of a linked segment has `after` as its `next`. -/
theorem Linked_last_next (l : DLL T) (after : Ptr) (ps : List Ptr) :
    ∀ (before last : Ptr), Linked l before ps after → ps.getLast? = some last →
      ∃ nd, l.load last = some nd ∧ nd.next = after := by
  induction ps with
  | nil => intro _ _ _ h; simp at h
  | cons p rest ih =>
    intro before last h hl
    obtain ⟨nd, hnd, _, hnext, hrest⟩ := h
    cases rest with
    | nil =>
      simp only [List.getLast?_singleton, Option.some.injEq] at hl
      subst hl
      exact ⟨nd, hnd, hnext⟩
    | cons q rest =>
      rw [List.getLast?_cons_cons] at hl
      exact ih p last hrest hl

/-- The method `RemoveFromBack` panics on every well linked list. -/
theorem WellLinked_RemoveFromBack {l : DLL T} {ps : List Ptr} (h : WellLinked l ps) :
    l.RemoveFromBack = .panic l := by
  obtain ⟨nd0, h0, hp0⟩ := h.heap0
  exact RemoveFromBack_panics l nd0 h0 hp0 h.tailPrev

/-- The method `Remove` applied to the dummy tail the walk ends in (heap address 1, whose
`next` is nil) panics: it is not `&l.tail`, and its `next` is dereferenced. -/
theorem Remove_dummy_tail_panics (l : DLL T) (t : Node T) (ht : l.heap[1]? = some t)
    (htn : t.next = .nil) : (l.Remove (.node 1)).panicked = true := by
  have hload : l.load (.node 1) = some t := ht
  unfold DLL.Remove
  rw [if_neg (by simp), if_neg (by simp)]
  simp only [hload]
  cases hp : l.load t.prev with
  | none => rfl
  | some pn =>
    simp only []
    have h1 : ∃ t1, (l.store t.prev { pn with next := t.next }).load (.node 1) = some t1 ∧
        t1.next = .nil := by
      by_cases he : t.prev = .node 1
      · rw [he]
        refine ⟨_, load_store_same l (.node 1) _ t hload, htn⟩
      · rw [load_store_ne l _ _ _ (fun e => he e.symm)]
        exact ⟨t, hload, htn⟩
    obtain ⟨t1, ht1, ht1n⟩ := h1
    simp only [ht1, ht1n]
    rfl

theorem build_heap_length [Inhabited T] (xs : List T) :
    (build xs).heap.length = xs.length + 2 := by
  induction xs using List.reverseRecOn with
  | nil => rfl
  | append_singleton xs x ih =>
    obtain ⟨ps, hw, _⟩ := WellLinked_build xs
    obtain ⟨a, first, l1, _, _, hins, hl1, _⟩ := WellLinked_insert x hw
    rw [build_append, hins, hl1]
    simp [Outcome.state, ih]

/-- The real nodes of a built list are the nodes the `InsertAtFront` calls returned
(heap address `i + 2` for the call number `i`), newest first. -/
theorem realNodes_build [Inhabited T] (xs : List T) :
    (build xs).realNodes = (List.range xs.length).reverse.map (fun i => Ptr.node (i + 2)) := by
  induction xs using List.reverseRecOn with
  | nil => rfl
  | append_singleton xs x ih =>
    obtain ⟨ps, hw, _⟩ := WellLinked_build xs
    obtain ⟨a, first, l1, _, _, hins, _, hw1⟩ := WellLinked_insert x hw
    rw [build_append, hins]
    simp only [Outcome.state]
    rw [WellLinked_realNodes hw1, ← WellLinked_realNodes hw, ih, build_heap_length]
    simp [List.range_succ]

/-- The method `Remove` rejects nil and the list's own two sentinels, and leaves the list as
it was. -/
theorem Remove_rejects_nil_and_own_sentinels (l : DLL T) :
    l.Remove .nil = .ret l (some .unableToRemoveNil) ∧
      l.Remove .head = .ret l (some .listIsEmpty) ∧
      l.Remove .tail = .ret l (some .listIsEmpty) := by
  refine ⟨?_, ?_, ?_⟩ <;> simp [DLL.Remove]

/-- The first real node of a built list has the front sentinel `&l.head` as `Prev()`. -/
theorem Prev_of_first_built [Inhabited T] (xs : List T) (first : Ptr)
    (h : (build xs).realNodes.head? = some first) : Node.Prev (build xs) first = some .head := by
  obtain ⟨ps, hw, _⟩ := WellLinked_build xs
  rw [WellLinked_realNodes hw] at h
  cases ps with
  | nil => simp at h
  | cons p rest =>
    simp only [List.head?_cons, Option.some.injEq] at h
    subst h
    obtain ⟨nd, hnd, hprev, _⟩ := hw.linked
    simp [Node.Prev, hnd, hprev]

/-- Every `InsertAtFront` call that builds a list returns no error, and the node at the
next heap address. -/
theorem InsertAtFront_build [Inhabited T] (xs : List T) (x : T) :
    (build xs).InsertAtFront x = .ret (build (xs ++ [x])) (.node (xs.length + 2), none) := by
  obtain ⟨ps, hw, _⟩ := WellLinked_build xs
  obtain ⟨a, first, l1, _, _, hins, _, _⟩ := WellLinked_insert x hw
  rw [build_append, hins, build_heap_length]
  rfl

end BuiltLists

/-! ## The claims about the list -/

section ListClaims

variable {T : Type}

/-- C11, on the code: on a list built by `InsertAtFront` calls, `MoveToFront(n)` of a real
node returns no error and leaves `Len()` unchanged, but the walk from the front
sentinel then yields `n` followed only by the nodes that were behind `n`: the
nodes that were in front of it are lost, so unless `n` was already first the
walk is not `n` followed by all the other real nodes.  `MoveToFront(nil)` does
return an error and leaves the list unchanged. -/
theorem C11_move_to_front_drops_nodes_in_front [Inhabited T] (xs : List T) (n : Ptr)
    (hn : n ∈ (build xs).realNodes) :
    ∃ l1, (build xs).MoveToFront n = .ret l1 none ∧ l1.Len = (build xs).Len ∧
      l1.realNodes = (build xs).realNodes.dropWhile (fun p => decide (p ≠ n)) ∧
      ((build xs).realNodes.head? ≠ some n →
        l1.realNodes ≠ n :: (build xs).realNodes.erase n) ∧
      (build xs).MoveToFront .nil = .ret (build xs) (some .cannotMoveNil) := by
  obtain ⟨ps, hw, _⟩ := WellLinked_build xs
  rw [WellLinked_realNodes hw] at hn ⊢
  obtain ⟨l1, hrun, hlen, hwalk⟩ := WellLinked_move n hw hn
  refine ⟨l1, hrun, hlen, hwalk, ?_, rfl⟩
  intro hhead heq
  obtain ⟨A, B, rfl⟩ := List.append_of_mem hn
  have hnA : n ∉ A := fun hin =>
    (List.disjoint_of_nodup_append hw.nodup) hin (List.mem_cons_self _ _)
  rw [hwalk, dropWhile_ne_append n A B hnA] at heq
  have hlen2 := congrArg List.length heq
  rw [List.length_cons, List.length_cons, List.length_erase_of_mem hn] at hlen2
  simp only [List.length_append, List.length_cons] at hlen2
  cases A with
  | nil => exact hhead rfl
  | cons p rest =>
    simp only [List.length_cons] at hlen2
    omega

/-- Two `InsertAtFront` calls, then `MoveToFront` of the first node inserted: the walk
yields only that node. -/
theorem C11_move_to_front_drops_nodes_in_front_witness :
    ∃ l1, (build [1, 2] : DLL Nat).MoveToFront (.node 2) = .ret l1 none ∧
      l1.Len = (build [1, 2] : DLL Nat).Len ∧
      l1.realNodes = (build [1, 2] : DLL Nat).realNodes.dropWhile
        (fun p => decide (p ≠ .node 2)) ∧
      ((build [1, 2] : DLL Nat).realNodes.head? ≠ some (.node 2) →
        l1.realNodes ≠ .node 2 :: (build [1, 2] : DLL Nat).realNodes.erase (.node 2)) ∧
      (build [1, 2] : DLL Nat).MoveToFront .nil =
        .ret (build [1, 2]) (some .cannotMoveNil) :=
  C11_move_to_front_drops_nodes_in_front [1, 2] (.node 2) (by decide)

/-- C12, on the code: on every list built by one or more `InsertAtFront` calls,
`RemoveFromBack` does not return: it panics, and removes nothing. -/
theorem C12_remove_from_back_panics_on_built_list [Inhabited T] (x : T) (xs : List T) :
    (build (x :: xs)).RemoveFromBack = .panic (build (x :: xs)) ∧
      (build (x :: xs)).realNodes.length = xs.length + 1 := by
  obtain ⟨ps, hw, hlen⟩ := WellLinked_build (x :: xs)
  refine ⟨WellLinked_RemoveFromBack hw, ?_⟩
  rw [WellLinked_realNodes hw, hlen]
  rfl

/-- C13, on the code: `RemoveFromBack` on a fresh list panics instead of returning the
"empty list" error, and so it does on a list whose only real node has been removed. -/
theorem C13_remove_from_back_panics_on_empty_list [Inhabited T] :
    (NewDoublyLinkedList : DLL T).RemoveFromBack = .panic NewDoublyLinkedList ∧
      ∀ x : T, ∃ l1, (build [x]).Remove (.node 2) = .ret l1 none ∧ l1.realNodes = [] ∧
        l1.Len = 0 ∧ l1.RemoveFromBack = .panic l1 := by
  refine ⟨WellLinked_RemoveFromBack WellLinked_new, ?_⟩
  intro x
  obtain ⟨ps, hw, hlen⟩ := WellLinked_build [x]
  have hps : ps = [.node 2] := by
    rw [← WellLinked_realNodes hw, realNodes_build]
    rfl
  subst hps
  obtain ⟨l1, hrun, hw1, hl1⟩ := WellLinked_remove (.node 2) hw (List.mem_singleton_self _)
  simp only [List.erase_cons_head] at hw1
  refine ⟨l1, hrun, WellLinked_realNodes hw1, ?_, WellLinked_RemoveFromBack hw1⟩
  have := hw1.lenEq
  simpa [DLL.Len] using this

/-- C14: on every list built by `InsertAtFront` calls, `Remove(n)` of a real node returns
no error, `Len()` decreases by one, and the real nodes met afterwards, walking
`next` links from the front sentinel, are the previous ones (each met once) with
`n` deleted, in the same order; walking `prev` links from the last node meets
the same nodes in reverse order. -/
theorem C14_remove_real_node [Inhabited T] (xs : List T) (n : Ptr)
    (hn : n ∈ (build xs).realNodes) :
    ∃ l1, (build xs).Remove n = .ret l1 none ∧ l1.Len = (build xs).Len - 1 ∧
      (build xs).realNodes.Nodup ∧
      l1.realNodes = (build xs).realNodes.erase n ∧
      l1.realNodesBack = ((build xs).realNodes.erase n).reverse := by
  obtain ⟨ps, hw, _⟩ := WellLinked_build xs
  rw [WellLinked_realNodes hw] at hn ⊢
  obtain ⟨l1, hrun, hw1, hl1⟩ := WellLinked_remove n hw hn
  exact ⟨l1, hrun, hl1, hw.nodup, WellLinked_realNodes hw1, WellLinked_realNodesBack hw1⟩

/-- Three `InsertAtFront` calls, then `Remove` of the second node inserted. -/
theorem C14_remove_real_node_witness :
    ∃ l1, (build [10, 20, 30] : DLL Nat).Remove (.node 3) = .ret l1 none ∧
      l1.Len = (build [10, 20, 30] : DLL Nat).Len - 1 ∧
      (build [10, 20, 30] : DLL Nat).realNodes.Nodup ∧
      l1.realNodes = (build [10, 20, 30] : DLL Nat).realNodes.erase (.node 3) ∧
      l1.realNodesBack = ((build [10, 20, 30] : DLL Nat).realNodes.erase (.node 3)).reverse :=
  C14_remove_real_node [10, 20, 30] (.node 3) (by decide)

/-- C15, on the code: on every list built by `InsertAtFront` calls, the node the getters
give a caller past the last real node (its `Next()`; the front sentinel's `next`
when the list is empty) is the constructor's local tail at heap address 1, not
`&l.tail`: `Remove` does not reject it, it panics.  With one real node, that
node's `next` link has been set to nil when the panic comes. -/
theorem C15_remove_of_reachable_dummy_tail_panics [Inhabited T] (xs : List T) :
    ((build xs).Remove (.node 1)).panicked = true ∧ (Ptr.node 1).isReal = false ∧
      (xs = [] → (build xs).head.next = .node 1) ∧
      (∀ last, (build xs).realNodes.getLast? = some last →
        Node.Next (build xs) last = some (.node 1)) ∧
      Node.Next (build [1] : DLL Nat) (.node 2) = some (.node 1) ∧
      Node.Next ((build [1] : DLL Nat).Remove (.node 1)).state (.node 2) = some .nil := by
  obtain ⟨ps, hw, _⟩ := WellLinked_build xs
  obtain ⟨t, ht, htn⟩ := hw.dummy
  refine ⟨Remove_dummy_tail_panics _ t ht htn, rfl, ?_, ?_, by decide, by decide⟩
  · intro h
    subst h
    rfl
  · intro last hl
    rw [WellLinked_realNodes hw] at hl
    obtain ⟨nd, hnd, hnext⟩ := Linked_last_next _ (.node 1) ps .head last hw.linked hl
    simp [Node.Next, hnd, hnext]

/-- C16: on every list built by `InsertAtFront` calls, `InsertAtFront(x)` returns no error and
a handle `n` to a node holding `x`; `Len()` grows by one; `n` is the front
sentinel's `next`, `n.Prev()` is the front sentinel, `n.Next()` is the node that
was first and that node's `Prev()` is now `n`; the walk meets `n` and then the
real nodes it met before; apart from these two links and `l.head.next`, no
node has changed. -/
theorem C16_insert_at_front_postcondition [Inhabited T] (xs : List T) (x : T) :
    ∃ l1 n nd, (build xs).InsertAtFront x = .ret l1 (n, none) ∧
      l1.load n = some nd ∧ nd.Value = x ∧ l1.Len = (build xs).Len + 1 ∧
      l1.head.next = n ∧ Node.Prev l1 n = some .head ∧
      Node.Next l1 n = some (build xs).head.next ∧
      Node.Prev l1 (build xs).head.next = some n ∧
      l1.realNodes = n :: (build xs).realNodes ∧
      l1.head = { (build xs).head with next := n } ∧ l1.tail = (build xs).tail ∧
      (∃ f, (build xs).load (build xs).head.next = some f ∧
        l1.load (build xs).head.next = some { f with prev := n }) ∧
      (∀ b, Ptr.node b ≠ n → Ptr.node b ≠ (build xs).head.next →
        l1.load (.node b) = (build xs).load (.node b)) := by
  obtain ⟨ps, hw, _⟩ := WellLinked_build xs
  obtain ⟨a, first, l1, h1, h2, hins, hl1, hw1⟩ := WellLinked_insert x hw
  have hlt : a < (build xs).heap.length := (List.getElem?_eq_some.1 h2).1
  have hne : a ≠ (build xs).heap.length := by omega
  generalize hnn : ({ prev := .head, next := .node a, list := .l, Value := x } : Node T) = new
    at hl1
  have hnew : l1.load (.node (build xs).heap.length) = some new := by
    rw [hl1]
    simp only [DLL.load]
    rw [List.getElem?_set_ne hne]
    simp
  have hfirst : l1.load (.node a) = some { first with prev := .node (build xs).heap.length } := by
    rw [hl1]
    simp only [DLL.load]
    rw [List.getElem?_set_self (by simp; omega)]
  refine ⟨l1, .node (build xs).heap.length, new, hins, hnew, by rw [← hnn], by rw [hl1]; rfl,
    by rw [hl1], ?_, ?_, ?_, ?_, by rw [hl1], by rw [hl1], ?_, ?_⟩
  · simp [Node.Prev, hnew, ← hnn]
  · simp [Node.Next, hnew, ← hnn, h1]
  · rw [h1]
    simp [Node.Prev, hfirst]
  · rw [WellLinked_realNodes hw1, WellLinked_realNodes hw]
  · rw [h1]
    exact ⟨first, h2, hfirst⟩
  · intro b hb1 hb2
    rw [h1] at hb2
    have hba : a ≠ b := fun e => hb2 (by rw [e])
    have hbn : b ≠ (build xs).heap.length := fun e => hb1 (by rw [e])
    rw [hl1]
    simp only [DLL.load]
    rw [List.getElem?_set_ne hba]
    by_cases hblt : b < (build xs).heap.length
    · rw [List.getElem?_append_left hblt]
    · rw [List.getElem?_eq_none (by simp; omega), List.getElem?_eq_none (by omega)]

/-- C17, on the code: in the list `NewDoublyLinkedList` returns, `Len()` is 0, but the
`next` link of the head sentinel is the constructor's local tail (heap address 1),
not the list's own tail sentinel `&l.tail`, and the `prev` link of the tail
sentinel is the constructor's local head (heap address 0), not `&l.head`;
`Remove` of the head sentinel's `next` is not rejected as a sentinel. -/
theorem C17_new_list_sentinels_point_to_copies [Inhabited T] :
    (NewDoublyLinkedList : DLL T).Len = 0 ∧
      (NewDoublyLinkedList : DLL T).head.next = .node 1 ∧
      (NewDoublyLinkedList : DLL T).head.next ≠ .tail ∧
      (NewDoublyLinkedList : DLL T).tail.prev = .node 0 ∧
      (NewDoublyLinkedList : DLL T).tail.prev ≠ .head ∧
      ((NewDoublyLinkedList : DLL T).Remove (NewDoublyLinkedList : DLL T).head.next).panicked
        = true := by
  refine ⟨rfl, rfl, ?_, rfl, ?_, ?_⟩
  · simp [NewDoublyLinkedList]
  · simp [NewDoublyLinkedList]
  · exact Remove_dummy_tail_panics _ _ rfl rfl

/-- C18, on the code: after `InsertAtFront(1)`, `InsertAtFront(2)` and `MoveToFront` of the first
handle (all return no error), `Len()` is 2 while the walk from the front sentinel
meets one real node. -/
theorem C18_len_differs_from_walk_after_move :
    ∃ l1 l2 l3, (NewDoublyLinkedList : DLL Nat).InsertAtFront 1 = .ret l1 (.node 2, none) ∧
      l1.InsertAtFront 2 = .ret l2 (.node 3, none) ∧
      l2.MoveToFront (.node 2) = .ret l3 none ∧
      Handled l3 [.node 3, .node 2] ∧
      l3.Len = 2 ∧ l3.realNodes = [.node 2] ∧ l3.Len ≠ (l3.realNodes.length : Int) := by
  refine ⟨_, _, _, rfl, rfl, rfl, ?_, by decide, by decide, by decide⟩
  exact Handled.move _ _ (.node 2)
    (Handled.insert _ _ 2 (Handled.insert _ _ 1 Handled.new)) (by decide)

/-- C19, on the code: on `NewCache(2)`, after `Set("a",1)` and `Get("a")` (both return no
error) the node of a is its own `prev`: `B.prev = A` holds with `A = B` while
`A.next` is the dummy tail, so link symmetry fails and a node's `prev` link
refers to the node itself. -/
theorem C19_get_of_front_node_links_it_to_itself :
    ∃ c nd, run (NewCache 2 : Cache String Nat) [.set "a" 1, .get "a"] =
        .ret c [.set none, .get 1 none] ∧
      mapGet c.entries "a" = some (.node 2) ∧
      c.list.load (.node 2) = some nd ∧ nd.prev = .node 2 ∧ nd.next = .node 1 ∧
      ¬ c.list.LinkSymmetric := by
  refine ⟨_, _, rfl, rfl, rfl, rfl, rfl, ?_⟩
  intro h
  exact (h.2.2 (.node 2) _ rfl).1 rfl

/-- C20: in every list state reachable from `NewDoublyLinkedList` by `InsertAtFront`, and
`MoveToFront` and `Remove` applied to handles `InsertAtFront` returned, the `prev` link
of the list's tail sentinel is what it was in the fresh list, is not a node
`InsertAtFront` created, and refers to a node whose own `prev` link is nil; so
`RemoveFromBack` panics and never returns a node. -/
theorem C20_tail_prev_is_never_updated [Inhabited T] (l : DLL T) (hs : List Ptr)
    (h : Handled l hs) :
    l.tail.prev = (NewDoublyLinkedList : DLL T).tail.prev ∧ l.tail.prev ∉ hs ∧
      l.tail.prev.isReal = false ∧
      (∃ nd, l.load l.tail.prev = some nd ∧ nd.prev = .nil) ∧
      l.RemoveFromBack = .panic l := by
  have hI := Handled_inv h
  obtain ⟨nd0, h0, hp0⟩ := hI.heap0
  refine ⟨hI.tailPrev, ?_, by rw [hI.tailPrev]; rfl, ⟨nd0, by rw [hI.tailPrev]; exact h0, hp0⟩,
    RemoveFromBack_panics l nd0 h0 hp0 hI.tailPrev⟩
  intro hin
  obtain ⟨a, ha, ha2, _⟩ := hI.handles _ hin
  rw [hI.tailPrev] at ha
  have : 0 = a := by simpa using ha
  omega

/-- The sample state: two `InsertAtFront` calls, `MoveToFront` and `Remove` of the first handle. -/
theorem C20_tail_prev_is_never_updated_witness :
    sampleList.tail.prev = (NewDoublyLinkedList : DLL Nat).tail.prev ∧
      sampleList.tail.prev ∉ [Ptr.node 3, Ptr.node 2] ∧
      sampleList.tail.prev.isReal = false ∧
      (∃ nd, sampleList.load sampleList.tail.prev = some nd ∧ nd.prev = .nil) ∧
      sampleList.RemoveFromBack = .panic sampleList :=
  C20_tail_prev_is_never_updated sampleList [.node 3, .node 2]
    (Handled.remove _ _ (.node 2)
      (Handled.move _ _ (.node 2)
        (Handled.insert _ _ 2 (Handled.insert _ _ 1 Handled.new)) (by decide)) (by decide))

end ListClaims

end lru
